import Mathlib

/-!
Verification development for the association-and-lifecycle core of an online
multi-object tracker (`fast_mot/tracker.py`, class `MultiTracker`).

The tracker is embedded shallowly:
* the bounded-rational geometry (`Rect`, intersection, IoU) models the
  geometry utility layer;
* the recursive state estimator (Kalman filter), the appearance metric, the
  feature smoothing, and the optimal bipartite assignment solver are external
  collaborators, parameterised as opaque function bundles (`KFImpl`, `Env`);
* the live track map (a Python dict keyed by integer id, insertion ordered)
  is an association list `List (Nat × Track)` with explicit lookup / replace /
  delete / insert operations matching dict semantics;
* floats are modelled as rationals.
-/

/-- Sentinel cost used for gated (infeasible) entries, `INF_COST = 1e5`. -/
def INF_COST : ℚ := 100000

/-- Axis-aligned rectangle in top-left/bottom-right coordinates. -/
structure Rect where
  xmin : ℚ
  ymin : ℚ
  xmax : ℚ
  ymax : ℚ
deriving DecidableEq, Repr

/-- Modelled from the spec: rectangle intersection `A ∩ B`, absent when the
two rectangles do not properly overlap (geometry utility, not under src/). -/
def rectInter (a b : Rect) : Option Rect :=
  let x1 := max a.xmin b.xmin
  let y1 := max a.ymin b.ymin
  let x2 := min a.xmax b.xmax
  let y2 := min a.ymax b.ymax
  if x1 < x2 ∧ y1 < y2 then some ⟨x1, y1, x2, y2⟩ else none

/-- Modelled from the spec: containment test of a rectangle against a region
(geometry utility, not under src/). -/
def rectContains (outer r : Rect) : Bool :=
  decide (outer.xmin ≤ r.xmin ∧ outer.ymin ≤ r.ymin ∧ r.xmax ≤ outer.xmax ∧ r.ymax ≤ outer.ymax)

/-- Signed area of a rectangle. -/
def areaR (r : Rect) : ℚ := (r.xmax - r.xmin) * (r.ymax - r.ymin)

/-- Modelled from the spec: intersection-over-union of two rectangles, the
"ratio of overlap area to union area" (the `bbox_overlaps` kernel is an
external library, not under src/). -/
def iou (a b : Rect) : ℚ :=
  let iw := max 0 (min a.xmax b.xmax - max a.xmin b.xmin)
  let ih := max 0 (min a.ymax b.ymax - max a.ymin b.ymin)
  let inter := iw * ih
  let un := areaR a + areaR b - inter
  if 0 < un then inter / un else 0

/-- Measurement kinds accepted by the estimator (`MeasType`). -/
inductive MeasType where
  | FLOW
  | DETECTOR
deriving DecidableEq, Repr

/-- One frame's detector output: category label, bounding box, confidence. -/
structure Detection where
  label : ℤ
  bbox : Rect
  conf : ℚ
deriving DecidableEq, Repr

/-- Default detection used only to totalise list indexing. -/
def d0 : Detection := ⟨0, ⟨0, 0, 0, 0⟩, 0⟩

/-! ### Association-list operations mirroring Python dict semantics -/

/-- First-match lookup in an association list (Python `d[k]` / `d.get(k)`). -/
def alookup {α : Type} : List (ℕ × α) → ℕ → Option α
  | [], _ => none
  | (k, v) :: m, id => if k = id then some v else alookup m id

/-- The keys of an association list, in insertion order. -/
def keys {α : Type} (m : List (ℕ × α)) : List ℕ := m.map Prod.fst

/-- Delete every entry with the given key (Python `del d[k]`). -/
def delKey {α : Type} (m : List (ℕ × α)) (k : ℕ) : List (ℕ × α) :=
  m.filter (fun p => p.1 ≠ k)

/-- Replace the value at an existing key in place (Python `d[k] = v` on a
present key: position in iteration order is preserved). -/
def setKey {α : Type} (m : List (ℕ × α)) (k : ℕ) (v : α) : List (ℕ × α) :=
  m.map (fun p => if p.1 = k then (k, v) else p)

/-- Python `d[k] = v`: replace in place when the key exists, append otherwise. -/
def insKey {α : Type} (m : List (ℕ × α)) (k : ℕ) (v : α) : List (ℕ × α) :=
  if (alookup m k).isSome then setKey m k v else m ++ [(k, v)]

/-! ### The data model -/

/-- Modelled from the spec: the per-track record (`Track`, src file absent).
`age` counts frames since the last detector update, `frames_since_acquired`
frames since creation, `state` the opaque estimator state, `features` the
bounded appearance-feature buffer. -/
structure Track (σ F : Type) where
  label : ℤ
  bbox : Rect
  init_bbox : Rect
  trk_id : ℕ
  age : ℕ
  frames_since_acquired : ℕ
  confirmed : Bool
  state : σ
  features : List F
deriving DecidableEq, Repr

/-- Modelled from the spec: `update_features` keeps a bounded buffer of the
most recent appearance embeddings (feature buffer, src file absent). -/
def updateFeatures {F : Type} (bufSize : ℕ) (fs : List F) (e : F) : List F :=
  (e :: fs).take bufSize

/-- Modelled from the spec: the opaque estimator interface (`KalmanFilter`,
out of scope, consumed as a service). `stateBBox` reads the bbox encoded in
the first four mean components (`Rect(tlbr=mean[:4])`). -/
structure KFImpl (σ : Type) where
  initiate : Rect → Rect → σ
  warpSt : σ → (Rect → Rect) → σ
  predict : σ → σ
  update : σ → Rect → MeasType → σ
  motionDistance : σ → Rect → ℚ
  stateBBox : σ → Rect

/-- The tunable thresholds loaded from `mot.json` (`MultiTracker.config`). -/
structure Cfg where
  max_age : ℕ
  n_init : ℕ
  feature_buf_size : ℕ
  motion_weight : ℚ
  max_motion_cost : ℚ
  max_feature_cost : ℚ
  min_iou_cost : ℚ
  max_feature_overlap : ℚ
  min_register_conf : ℚ

/-- A cost matrix: row and column counts plus an entry function. -/
structure Mat where
  r : ℕ
  c : ℕ
  ent : ℕ → ℕ → ℚ

/-- The external collaborators and configuration a `MultiTracker` closes
over: the estimator, the feature smoother and appearance metric, the
bipartite assignment solver (`scipy.optimize.linear_sum_assignment`), frame
bounds, the detector region, defaults used to totalise list indexing, and
the thresholds. -/
structure Env (σ F : Type) where
  kf : KFImpl σ
  smooth : List F → F
  metric : F → F → ℚ
  solver : Mat → Bool → List (ℕ × ℕ)
  frame_rect : Rect
  detector_region : Rect
  s0 : σ
  f0 : F
  cfg : Cfg

/-- The mutable tracker state: the id counter and the live track map. -/
structure MT (σ F : Type) where
  next_id : ℕ
  tracks : List (ℕ × Track σ F)
deriving DecidableEq

/-- Modelled from the spec: a freshly created track (the `Track` constructor,
src file absent): unconfirmed, age 0, zero frames since acquisition, empty
feature buffer, `init_bbox` seeded from the detection box. -/
def newTrack {σ F : Type} (env : Env σ F) (label : ℤ) (bbox : Rect) (tid : ℕ) : Track σ F :=
  { label := label, bbox := bbox, init_bbox := bbox, trk_id := tid,
    age := 0, frames_since_acquired := 0, confirmed := false,
    state := env.s0, features := [] }

/-- `self.tracks[trk_id]`, totalised with a default fresh track. -/
def getTrack {σ F : Type} (env : Env σ F) (st : MT σ F) (tid : ℕ) : Track σ F :=
  (alookup st.tracks tid).getD (newTrack env 0 ⟨0, 0, 0, 0⟩ tid)

/-! ### Cost and gating kernels -/

/-- `_fuse_motion`: per-entry fusing of feature distance and motion distance.
The gate is computed from the raw feature distance, the motion distance and
the labels, then gated entries are overwritten with `INF_COST`. -/
def fuseMotion (cost motionDist : List ℚ) (label : ℤ) (detLabels : List ℤ)
    (maxMotion maxFeature weight : ℚ) : List ℚ :=
  (cost.zip (motionDist.zip detLabels)).map (fun p =>
    if p.1 > maxFeature ∨ p.2.1 > maxMotion ∨ label ≠ p.2.2 then INF_COST
    else (1 - weight) * p.1 + weight * p.2.1)

/-- `_matching_cost`: the stage-1 cost matrix over `trk_ids × detections`.
Empty on either degenerate side (`np.empty`, whose entries are arbitrary and
never validly indexed; 0 is used here); otherwise each row is the feature
distance row (`cdist` of the track's smoothed feature against the
embeddings) fused with the motion distances by `_fuse_motion`. -/
def MT.matchingCost {σ F : Type} (env : Env σ F) (st : MT σ F)
    (trkIds : List ℕ) (dets : List Detection) (embs : List F) : Mat :=
  if trkIds.length = 0 ∨ dets.length = 0 then
    ⟨trkIds.length, dets.length, fun _ _ => 0⟩
  else
    let detLabels := dets.map (·.label)
    let rows := trkIds.map (fun tid =>
      let tr := getTrack env st tid
      let frow := embs.map (fun e => env.metric (env.smooth tr.features) e)
      let mrow := dets.map (fun d => env.kf.motionDistance tr.state d.bbox)
      fuseMotion frow mrow tr.label detLabels
        env.cfg.max_motion_cost env.cfg.max_feature_cost env.cfg.motion_weight)
    ⟨trkIds.length, dets.length, fun i j => (rows.getD i []).getD j 0⟩

/-- `_iou_cost` with `_gate_ious`: the stage-2 IoU matrix, entries zeroed
when below `min_iou_cost` or when the category labels differ. -/
def MT.iouCost {σ F : Type} (env : Env σ F) (st : MT σ F)
    (trkIds : List ℕ) (dets : List Detection) : Mat :=
  if trkIds.length = 0 ∨ dets.length = 0 then
    ⟨trkIds.length, dets.length, fun _ _ => 0⟩
  else
    ⟨trkIds.length, dets.length, fun i j =>
      let tr := getTrack env st (trkIds.getD i 0)
      let det := dets.getD j d0
      let v := iou tr.bbox det.bbox
      if v < env.cfg.min_iou_cost ∨ tr.label ≠ det.label then 0 else v⟩

/-- Whether `_linear_assignment` keeps a solver pair as a real match:
`cost < INF_COST` when minimising, `cost > 0` when maximising. -/
def keepPair (cost : Mat) (maximize : Bool) (p : ℕ × ℕ) : Bool :=
  if maximize then decide (cost.ent p.1 p.2 > 0) else decide (cost.ent p.1 p.2 < INF_COST)

/-- `_linear_assignment`: run the bipartite solver on the cost matrix, report
rows/columns missing from the solver output as unmatched, keep a solver pair
as a match only when it passes the threshold filter, and move filtered pairs
to the unmatched lists. -/
def linearAssignment (solver : Mat → Bool → List (ℕ × ℕ)) (cost : Mat)
    (trkIds detIds : List ℕ) (maximize : Bool) :
    List (ℕ × ℕ) × List ℕ × List ℕ :=
  let pairs := solver cost maximize
  let rows := pairs.map Prod.fst
  let cols := pairs.map Prod.snd
  let unmatchedRows := (List.range cost.r).filter (fun i => ¬ i ∈ rows)
  let unmatchedCols := (List.range cost.c).filter (fun j => ¬ j ∈ cols)
  let kept := pairs.filter (keepPair cost maximize)
  let gated := pairs.filter (fun p => ¬ keepPair cost maximize p)
  (kept.map (fun p => (trkIds.getD p.1 0, detIds.getD p.2 0)),
   unmatchedRows.map (fun i => trkIds.getD i 0) ++ gated.map (fun p => trkIds.getD p.1 0),
   unmatchedCols.map (fun j => detIds.getD j 0) ++ gated.map (fun p => detIds.getD p.2 0))

/-- `_max_overlaps`: for each match, the maximum IoU (`initial=0`) between
the matched detection's bbox and the bboxes of the given tracks other than
the matched track itself; all zeros on the degenerate shortcut. -/
def MT.maxOverlaps {σ F : Type} (env : Env σ F) (st : MT σ F)
    (ms : List (ℕ × ℕ)) (trkIds : List ℕ) (dets : List Detection) : List ℚ :=
  if trkIds.length = 0 ∨ ms.length = 0 then
    ms.map (fun _ => 0)
  else
    ms.map (fun m =>
      ((trkIds.filter (fun c => c ≠ m.1)).map
        (fun c => iou (dets.getD m.2 d0).bbox (getTrack env st c).bbox)).foldr max 0)

/-! ### The association pipeline (`update`) -/

/-- The body of the matched-pair loop in `update`: reset `age`, fold the
detection bbox into the estimator as a DETECTOR measurement, delete the
track when the resulting bbox leaves the frame, otherwise commit state and
bbox, absorb the embedding when `max_overlap <= max_feature_overlap` or the
track is unconfirmed, and confirm the track. A missing key (impossible under
a valid solver) leaves the state unchanged. -/
def applyMatchStep {σ F : Type} (env : Env σ F) (dets : List Detection) (embs : List F)
    (st : MT σ F) (p : (ℕ × ℕ) × ℚ) : MT σ F :=
  match alookup st.tracks p.1.1 with
  | none => st
  | some tr =>
    let det := dets.getD p.1.2 d0
    let tr1 := { tr with age := 0 }
    let s2 := env.kf.update tr.state det.bbox MeasType.DETECTOR
    let nb := env.kf.stateBBox s2
    match rectInter nb env.frame_rect with
    | some _ =>
      let tr2 := { tr1 with state := s2, bbox := nb }
      let tr3 :=
        if p.2 ≤ env.cfg.max_feature_overlap ∨ tr2.confirmed = false then
          { tr2 with features := updateFeatures env.cfg.feature_buf_size tr2.features (embs.getD p.1.2 env.f0) }
        else tr2
      let tr4 := if tr3.confirmed = false then { tr3 with confirmed := true } else tr3
      { st with tracks := setKey st.tracks p.1.1 tr4 }
    | none => { st with tracks := delKey st.tracks p.1.1 }

/-- The matched-pair loop of `update` over the zipped matches and overlaps. -/
def applyMatches {σ F : Type} (env : Env σ F) (dets : List Detection) (embs : List F)
    (st : MT σ F) (ms : List ((ℕ × ℕ) × ℚ)) : MT σ F :=
  ms.foldl (applyMatchStep env dets embs) st

/-- One step of the registration loop of `update`: an unmatched detection
with confidence above `min_register_conf` seeds a new track at `next_id`. -/
def registerStep {σ F : Type} (env : Env σ F) (dets : List Detection)
    (st : MT σ F) (did : ℕ) : MT σ F :=
  let det := dets.getD did d0
  if det.conf > env.cfg.min_register_conf then
    { next_id := st.next_id + 1,
      tracks := insKey st.tracks st.next_id (newTrack env det.label det.bbox st.next_id) }
  else st

/-- The registration loop of `update` over the unmatched detection ids. -/
def registerNew {σ F : Type} (env : Env σ F) (dets : List Detection)
    (st : MT σ F) (dids : List ℕ) : MT σ F :=
  dids.foldl (registerStep env dets) st

/-- One step of the lost-track cleanup loop of `update`: an unmatched
unconfirmed track is deleted immediately; an unmatched confirmed track is
aged by one and deleted when its age exceeds `max_age`. A missing key
(impossible under a valid solver) leaves the state unchanged. -/
def cleanupStep {σ F : Type} (maxAge : ℕ) (st : MT σ F) (tid : ℕ) : MT σ F :=
  match alookup st.tracks tid with
  | none => st
  | some tr =>
    if tr.confirmed = false then { st with tracks := delKey st.tracks tid }
    else
      let tr' := { tr with age := tr.age + 1 }
      if tr'.age > maxAge then { st with tracks := delKey st.tracks tid }
      else { st with tracks := setKey st.tracks tid tr' }

/-- The lost-track cleanup loop of `update`. -/
def cleanupLost {σ F : Type} (maxAge : ℕ) (st : MT σ F) (tids : List ℕ) : MT σ F :=
  tids.foldl (cleanupStep maxAge) st

/-- The intermediate data of one `update` call: the confirmed/unconfirmed
partition, the two matching stages, the merged match and unmatched lists,
and the per-match maximum overlaps. -/
structure UpdParts where
  confirmedIds : List ℕ
  unconfirmedIds : List ℕ
  matchesA : List (ℕ × ℕ)
  uTrkA0 : List ℕ
  uDetA : List ℕ
  candidates : List ℕ
  uTrkA : List ℕ
  matchesB : List (ℕ × ℕ)
  uTrkB : List ℕ
  uDet : List ℕ
  matchesAll : List (ℕ × ℕ)
  uTrk : List ℕ
  overlaps : List ℚ
deriving DecidableEq

/-- The association pipeline of `update` up to (and excluding) the three
mutation loops: stage 1 (appearance+motion over confirmed tracks), the
candidate split, stage 2 (IoU over candidates and still-unmatched
detections), the merge, and the max-overlap computation — all on the
pre-call track map. -/
def MT.updateParts {σ F : Type} (env : Env σ F) (st : MT σ F)
    (dets : List Detection) (embs : List F) : UpdParts :=
  let detIds := List.range dets.length
  let confirmedIds := (st.tracks.filter (fun p => p.2.confirmed = true)).map Prod.fst
  let unconfirmedIds := (st.tracks.filter (fun p => ¬ p.2.confirmed = true)).map Prod.fst
  let cost := st.matchingCost env confirmedIds dets embs
  let resA := linearAssignment env.solver cost confirmedIds detIds false
  let matchesA := resA.1
  let uTrkA0 := resA.2.1
  let uDetA := resA.2.2
  let candidates := unconfirmedIds ++ uTrkA0.filter (fun tid => (getTrack env st tid).age = 0)
  let uTrkA := uTrkA0.filter (fun tid => ¬ (getTrack env st tid).age = 0)
  let uDetections := uDetA.map (fun did => dets.getD did d0)
  let ious := st.iouCost env candidates uDetections
  let resB := linearAssignment env.solver ious candidates uDetA true
  let mAll := matchesA ++ resB.1
  { confirmedIds := confirmedIds, unconfirmedIds := unconfirmedIds,
    matchesA := matchesA, uTrkA0 := uTrkA0, uDetA := uDetA,
    candidates := candidates, uTrkA := uTrkA,
    matchesB := resB.1, uTrkB := resB.2.1, uDet := resB.2.2,
    matchesAll := mAll, uTrk := uTrkA ++ resB.2.1,
    overlaps := st.maxOverlaps env mAll confirmedIds dets }

/-- `update`: the full per-frame association step — run the pipeline, apply
the matches, register the high-confidence unmatched detections, and clean up
the unmatched tracks. -/
def MT.update {σ F : Type} (env : Env σ F) (st : MT σ F)
    (dets : List Detection) (embs : List F) : MT σ F :=
  let p := st.updateParts env dets embs
  cleanupLost env.cfg.max_age
    (registerNew env dets (applyMatches env dets embs st (p.matchesAll.zip p.overlaps)) p.uDet)
    p.uTrk

/-! ### The track lifecycle controller (`track` / propagate) -/

/-- The per-track body of the propagation loop in `track`, given the present
homography `H` and the flow hint for this track: increment
`frames_since_acquired`; in warm-up, initialise the estimator on the
`n_init`-th frame, otherwise warp `init_bbox` and adopt the hint, and drop
the track when the hint is missing; in steady state warp and predict the
estimator, fold in the hint as a FLOW measurement when `age = 0` or the bbox
is outside the detector region, and drop the track when the new bbox leaves
the frame. -/
def propagateOne {σ F : Type} (env : Env σ F) (H : Rect → Rect)
    (hint : Option Rect) (tr0 : Track σ F) : Option (Track σ F) :=
  let tr := { tr0 with frames_since_acquired := tr0.frames_since_acquired + 1 }
  if tr.frames_since_acquired ≤ env.cfg.n_init then
    match hint with
    | some fb =>
      if tr.frames_since_acquired = env.cfg.n_init then
        some { tr with state := env.kf.initiate tr.init_bbox fb }
      else
        some { tr with init_bbox := H tr.init_bbox, bbox := fb }
    | none => none
  else
    let s1 := env.kf.predict (env.kf.warpSt tr.state H)
    let s2 :=
      match hint with
      | some fb =>
        if tr.age = 0 ∨ rectContains env.detector_region tr.bbox = false then
          env.kf.update s1 fb MeasType.FLOW
        else s1
      | none => s1
    let nb := env.kf.stateBBox s2
    match rectInter nb env.frame_rect with
    | some _ => some { tr with state := s2, bbox := nb }
    | none => none

/-- `track` (per-frame motion step), with the flow module's output passed in
as data: an absent homography clears every track; otherwise every track is
propagated by `propagateOne` and dropped tracks are removed from the map. -/
def MT.trackStep {σ F : Type} (env : Env σ F) (st : MT σ F)
    (flow : ℕ → Option Rect) (Hcam : Option (Rect → Rect)) : MT σ F :=
  match Hcam with
  | none => { st with tracks := [] }
  | some H =>
    { st with tracks := st.tracks.filterMap (fun p =>
        (propagateOne env H (flow p.1) p.2).map (fun tr => (p.1, tr))) }

/-- `initiate`: clear the track map and seed one new track per detection, in
detection order, consuming consecutive ids from `next_id`. -/
def MT.initiate {σ F : Type} (env : Env σ F) (st : MT σ F)
    (dets : List Detection) : MT σ F :=
  dets.foldl
    (fun acc det =>
      { next_id := acc.next_id + 1,
        tracks := insKey acc.tracks acc.next_id (newTrack env det.label det.bbox acc.next_id) })
    { st with tracks := [] }

/-! ### Runs of tracker operations -/

/-- One public tracker operation with its per-frame external inputs. -/
inductive Op (σ F : Type) where
  | doTrack (flow : ℕ → Option Rect) (Hcam : Option (Rect → Rect))
  | doInitiate (dets : List Detection)
  | doUpdate (dets : List Detection) (embs : List F)

/-- Apply one tracker operation. -/
def stepOp {σ F : Type} (env : Env σ F) (st : MT σ F) : Op σ F → MT σ F
  | Op.doTrack flow Hcam => st.trackStep env flow Hcam
  | Op.doInitiate dets => st.initiate env dets
  | Op.doUpdate dets embs => st.update env dets embs

/-- Apply a sequence of tracker operations. -/
def runOps {σ F : Type} (env : Env σ F) (st : MT σ F) (ops : List (Op σ F)) : MT σ F :=
  ops.foldl (stepOp env) st

/-- The tracker-state invariant: live keys are pairwise distinct and all
strictly below the id counter. -/
def TrkInv {σ F : Type} (st : MT σ F) : Prop :=
  (keys st.tracks).Nodup ∧ ∀ id ∈ keys st.tracks, id < st.next_id

instance {σ F : Type} (st : MT σ F) : Decidable (TrkInv st) := by
  unfold TrkInv; infer_instance

/-- A well-behaved assignment solver: the reported row indices are pairwise
distinct, the column indices are pairwise distinct, and every pair is in
range for the given matrix. `scipy.optimize.linear_sum_assignment` satisfies
this (it returns a partial permutation of size `min r c`). -/
def SolverOK (solver : Mat → Bool → List (ℕ × ℕ)) : Prop :=
  ∀ m mx, ((solver m mx).map Prod.fst).Nodup ∧ ((solver m mx).map Prod.snd).Nodup ∧
    ∀ p ∈ solver m mx, p.1 < m.r ∧ p.2 < m.c

/-! ### Concrete instances used to exercise the model -/

/-- The fully seeded track list `initiate` produces: one track per detection,
in detection order, with consecutive ids starting at `n`. -/
def seedList {σ F : Type} (env : Env σ F) (n : ℕ) : List Detection → List (ℕ × Track σ F)
  | [] => []
  | det :: rest => (n, newTrack env det.label det.bbox n) :: seedList env (n + 1) rest

/-- A trivial concrete estimator over a unit state, for evaluating the model. -/
def kfU : KFImpl Unit :=
  { initiate := fun _ _ => (), warpSt := fun s _ => s, predict := fun s => s,
    update := fun s _ _ => s, motionDistance := fun _ _ => 0,
    stateBBox := fun _ => ⟨0, 0, 1, 1⟩ }

/-- A concrete configuration for evaluating the model. -/
def cfgT : Cfg :=
  { max_age := 2, n_init := 2, feature_buf_size := 2, motion_weight := 1/2,
    max_motion_cost := 10, max_feature_cost := 10, min_iou_cost := 1/10,
    max_feature_overlap := 0, min_register_conf := 1/2 }

/-- The solver that reports no pairs at all. -/
def emptySolver : Mat → Bool → List (ℕ × ℕ) := fun _ _ => []

/-- The diagonal solver: pairs `(i, i)` for `i < min r c` — a valid (if not
optimal) assignment of the smaller side. -/
def diagSolver : Mat → Bool → List (ℕ × ℕ) :=
  fun m _ => (List.range (min m.r m.c)).map (fun i => (i, i))

/-- A solver that reports the pair `(0, 0)` even on a 0-row matrix. -/
def junkSolver : Mat → Bool → List (ℕ × ℕ) := fun _ _ => [(0, 0)]

/-- A concrete environment (unit estimator state, rational embeddings). -/
def tenv : Env Unit ℚ :=
  { kf := kfU, smooth := fun l => l.headD 0, metric := fun a b => (a - b) * (a - b),
    solver := diagSolver, frame_rect := ⟨0, 0, 10, 10⟩,
    detector_region := ⟨0, 0, 10, 10⟩, s0 := (), f0 := 0, cfg := cfgT }

/-- A confirmed concrete track for evaluating the model. -/
def trT (id : ℕ) (age : ℕ) (conf : Bool) (bb : Rect) : Track Unit ℚ :=
  { label := 0, bbox := bb, init_bbox := bb, trk_id := id, age := age,
    frames_since_acquired := 5, confirmed := conf, state := (), features := [1] }

/-- A constant flow-hint function for evaluating the model. -/
def flowW : ℕ → Option Rect := fun _ => some ⟨1, 1, 2, 2⟩

/-- A concrete operation sequence for evaluating the model: a bulk
initiation, an empty-frame association, and a failed camera-motion frame. -/
def opsW : List (Op Unit ℚ) :=
  [Op.doInitiate [⟨0, ⟨0, 0, 2, 2⟩, 0⟩], Op.doUpdate [] [], Op.doTrack flowW none]

/-! ### Lemmas about the association-list operations -/

theorem keys_cons {α : Type} (p : ℕ × α) (m : List (ℕ × α)) :
    keys (p :: m) = p.1 :: keys m := rfl

theorem alookup_cons {α : Type} (k : ℕ) (v : α) (m : List (ℕ × α)) (id : ℕ) :
    alookup ((k, v) :: m) id = if k = id then some v else alookup m id := rfl

theorem alookup_eq_none {α : Type} (m : List (ℕ × α)) (id : ℕ) :
    alookup m id = none ↔ ¬ id ∈ keys m := by
  induction m with
  | nil => simp [alookup, keys]
  | cons p rest ih =>
    obtain ⟨k, v⟩ := p
    rw [alookup_cons, keys_cons, List.mem_cons]
    by_cases h : k = id
    · subst h; simp
    · simp [h, Ne.symm h, ih]

theorem alookup_mem {α : Type} (m : List (ℕ × α)) (id : ℕ) (v : α)
    (h : alookup m id = some v) : (id, v) ∈ m := by
  induction m with
  | nil => simp [alookup] at h
  | cons p rest ih =>
    obtain ⟨k, w⟩ := p
    rw [alookup_cons] at h
    by_cases hk : k = id
    · subst hk
      simp at h
      simp [h]
    · simp [hk] at h
      exact List.mem_cons_of_mem _ (ih h)

theorem mem_alookup {α : Type} (m : List (ℕ × α)) (id : ℕ) (v : α)
    (hnd : (keys m).Nodup) (h : (id, v) ∈ m) : alookup m id = some v := by
  induction m with
  | nil => simp at h
  | cons p rest ih =>
    obtain ⟨k, w⟩ := p
    rw [keys_cons, List.nodup_cons] at hnd
    rw [alookup_cons]
    rcases List.mem_cons.mp h with h1 | h1
    · rw [Prod.mk.injEq] at h1
      obtain ⟨rfl, rfl⟩ := h1
      simp
    · have hne : k ≠ id := by
        intro hk; subst hk
        exact hnd.1 (by simpa [keys] using List.mem_map_of_mem Prod.fst h1)
      simp [hne]
      exact ih hnd.2 h1

theorem keys_setKey {α : Type} (m : List (ℕ × α)) (k : ℕ) (v : α) :
    keys (setKey m k v) = keys m := by
  induction m with
  | nil => rfl
  | cons p rest ih =>
    obtain ⟨k2, w⟩ := p
    by_cases h : k2 = k
    · subst h; simp [setKey, keys] at ih ⊢; exact ih
    · simp [setKey, keys, h] at ih ⊢; exact ih

theorem keys_delKey {α : Type} (m : List (ℕ × α)) (k : ℕ) :
    keys (delKey m k) = (keys m).filter (fun id => id ≠ k) := by
  induction m with
  | nil => rfl
  | cons p rest ih =>
    obtain ⟨k2, w⟩ := p
    by_cases h : k2 = k
    · subst h
      simp only [delKey, keys, List.filter_cons] at ih ⊢
      simpa using ih
    · simp only [delKey, keys, List.filter_cons] at ih ⊢
      simp [h] at ih ⊢
      exact ih

theorem setKey_cons {α : Type} (k2 : ℕ) (w : α) (m : List (ℕ × α)) (k : ℕ) (v : α) :
    setKey ((k2, w) :: m) k v =
      (if k2 = k then (k, v) else (k2, w)) :: setKey m k v := by
  by_cases h : k2 = k <;> simp [setKey, h]

theorem delKey_cons {α : Type} (k2 : ℕ) (w : α) (m : List (ℕ × α)) (k : ℕ) :
    delKey ((k2, w) :: m) k =
      if k2 = k then delKey m k else (k2, w) :: delKey m k := by
  by_cases h : k2 = k <;> simp [delKey, h]

theorem alookup_setKey_self {α : Type} (m : List (ℕ × α)) (k : ℕ) (v : α)
    (h : k ∈ keys m) : alookup (setKey m k v) k = some v := by
  induction m with
  | nil => simp [keys] at h
  | cons p rest ih =>
    obtain ⟨k2, w⟩ := p
    rw [setKey_cons]
    by_cases hp : k2 = k
    · simp [hp, alookup_cons]
    · rw [keys_cons, List.mem_cons] at h
      have hk : k ∈ keys rest := by
        rcases h with h | h
        · exact absurd h.symm hp
        · exact h
      simp [hp, alookup_cons, Ne.symm hp]
      exact ih hk

theorem alookup_setKey_ne {α : Type} (m : List (ℕ × α)) (k id : ℕ) (v : α)
    (h : k ≠ id) : alookup (setKey m k v) id = alookup m id := by
  induction m with
  | nil => rfl
  | cons p rest ih =>
    obtain ⟨k2, w⟩ := p
    rw [setKey_cons]
    by_cases hp : k2 = k
    · simp [hp, alookup_cons, h, ih]
    · by_cases hid : k2 = id
      · subst hid; simp [Ne.symm h, alookup_cons]
      · simp [hp, hid, alookup_cons, ih]

theorem alookup_delKey_self {α : Type} (m : List (ℕ × α)) (k : ℕ) :
    alookup (delKey m k) k = none := by
  rw [alookup_eq_none, keys_delKey]
  simp

theorem alookup_delKey_ne {α : Type} (m : List (ℕ × α)) (k id : ℕ)
    (h : k ≠ id) : alookup (delKey m k) id = alookup m id := by
  induction m with
  | nil => rfl
  | cons p rest ih =>
    obtain ⟨k2, w⟩ := p
    rw [delKey_cons]
    by_cases hp : k2 = k
    · simp [hp, alookup_cons, h]
      exact ih
    · by_cases hid : k2 = id
      · subst hid; simp [hp, Ne.symm h, alookup_cons]
      · simp [hp, hid, alookup_cons]
        exact ih

theorem alookup_append {α : Type} (m1 m2 : List (ℕ × α)) (id : ℕ) :
    alookup (m1 ++ m2) id =
      match alookup m1 id with
      | some v => some v
      | none => alookup m2 id := by
  induction m1 with
  | nil => simp [alookup]
  | cons p rest ih =>
    obtain ⟨k, v⟩ := p
    by_cases hp : k = id
    · subst hp; simp [alookup]
    · simp [alookup, hp] at ih ⊢
      exact ih

theorem alookup_insKey_ne {α : Type} (m : List (ℕ × α)) (k id : ℕ) (v : α)
    (h : k ≠ id) : alookup (insKey m k v) id = alookup m id := by
  unfold insKey
  by_cases hs : (alookup m k).isSome
  · simp [hs, alookup_setKey_ne m k id v h]
  · simp [hs, alookup_append, alookup, h]
    cases alookup m id <;> simp

theorem mem_setKey {α : Type} (m : List (ℕ × α)) (k : ℕ) (v : α) (id : ℕ) (tr : α)
    (h : (id, tr) ∈ setKey m k v) :
    (id = k ∧ tr = v) ∨ ((id, tr) ∈ m ∧ ¬ id = k) := by
  unfold setKey at h
  rcases List.mem_map.mp h with ⟨p, hp, heq⟩
  obtain ⟨pk, pv⟩ := p
  by_cases hpk : pk = k
  · subst hpk
    simp at heq
    left
    exact ⟨heq.1.symm, heq.2.symm⟩
  · simp [hpk] at heq
    obtain ⟨h1, h2⟩ := heq
    subst h1
    subst h2
    right
    exact ⟨hp, hpk⟩

theorem mem_delKey {α : Type} (m : List (ℕ × α)) (k : ℕ) (id : ℕ) (tr : α) :
    (id, tr) ∈ delKey m k ↔ (id, tr) ∈ m ∧ id ≠ k := by
  unfold delKey
  rw [List.mem_filter]
  simp

theorem keys_insKey {α : Type} (m : List (ℕ × α)) (k : ℕ) (v : α) :
    keys (insKey m k v) = if (alookup m k).isSome then keys m else keys m ++ [k] := by
  unfold insKey
  by_cases hs : (alookup m k).isSome
  · simp [hs, keys_setKey]
  · simp [hs, keys]

theorem mem_insKey {α : Type} (m : List (ℕ × α)) (k : ℕ) (v : α) (id : ℕ) (tr : α)
    (h : (id, tr) ∈ insKey m k v) : (id, tr) ∈ m ∨ (id = k ∧ tr = v) := by
  unfold insKey at h
  by_cases hs : (alookup m k).isSome
  · simp [hs] at h
    rcases mem_setKey m k v id tr h with h1 | h1
    · right; exact h1
    · left; exact h1.1
  · simp [hs] at h
    rcases h with h | h
    · left; exact h
    · right; exact ⟨h.1, h.2⟩

/-! ### Helper lemmas about the tracker operations -/

theorem solverOK_empty : SolverOK emptySolver := by
  intro m mx
  simp [emptySolver]

theorem solverOK_diag : SolverOK diagSolver := by
  intro m mx
  refine ⟨?_, ?_, ?_⟩
  · simp only [diagSolver, List.map_map]
    have : (Prod.fst ∘ fun i : ℕ => (i, i)) = id := rfl
    rw [this, List.map_id]
    exact List.nodup_range _
  · simp only [diagSolver, List.map_map]
    have : (Prod.snd ∘ fun i : ℕ => (i, i)) = id := rfl
    rw [this, List.map_id]
    exact List.nodup_range _
  · intro p hp
    simp only [diagSolver, List.mem_map, List.mem_range] at hp
    obtain ⟨i, hi, rfl⟩ := hp
    exact ⟨lt_of_lt_of_le hi (Nat.min_le_left _ _), lt_of_lt_of_le hi (Nat.min_le_right _ _)⟩

theorem initiate_run {σ F : Type} (env : Env σ F) (dets : List Detection)
    (n : ℕ) (acc : List (ℕ × Track σ F)) (hk : ∀ id ∈ keys acc, id < n) :
    (dets.foldl
      (fun a det =>
        { next_id := a.next_id + 1,
          tracks := insKey a.tracks a.next_id (newTrack env det.label det.bbox a.next_id) })
      (⟨n, acc⟩ : MT σ F)) =
      ⟨n + dets.length, acc ++ seedList env n dets⟩ := by
  induction dets generalizing n acc with
  | nil => simp [seedList]
  | cons det rest ih =>
    have hnone : alookup acc n = none := by
      rw [alookup_eq_none]
      intro hmem
      exact absurd (hk n hmem) (lt_irrefl n)
    have hins : insKey acc n (newTrack env det.label det.bbox n) =
        acc ++ [(n, newTrack env det.label det.bbox n)] := by
      unfold insKey
      rw [hnone]
      simp
    rw [List.foldl_cons]
    show (rest.foldl _ (⟨n + 1, insKey acc n (newTrack env det.label det.bbox n)⟩ : MT σ F)) = _
    rw [hins, ih (n + 1) _ ?hk2]
    case hk2 =>
      intro id hid
      rw [keys, List.map_append] at hid
      rcases List.mem_append.mp hid with h | h
      · exact Nat.lt_succ_of_lt (hk id h)
      · simp [keys] at h
        omega
    rw [MT.mk.injEq]
    constructor
    · simp only [List.length_cons]
      omega
    · rw [seedList, List.append_assoc]
      rfl

theorem seedList_length {σ F : Type} (env : Env σ F) (n : ℕ) (dets : List Detection) :
    (seedList env n dets).length = dets.length := by
  induction dets generalizing n with
  | nil => rfl
  | cons det rest ih => simp [seedList, ih]

/-- C4: when the flow module reports an absent camera homography, the
per-frame motion step clears every live track and returns normally: the
resulting live track set is empty regardless of the prior state. -/
theorem camera_motion_failure_clears {σ F : Type} (env : Env σ F) (st : MT σ F)
    (flow : ℕ → Option Rect) :
    (st.trackStep env flow none).tracks = [] := rfl

/-- C10: `initiate` seeds exactly one new track per input detection, in
detection order, with consecutive ids from `next_id`; no confidence
threshold is applied (the `min_register_conf` gate of `update` is absent),
so even a zero-confidence detection seeds a track. -/
theorem initiate_seeds_every_detection {σ F : Type} (env : Env σ F) (st : MT σ F)
    (dets : List Detection) :
    (st.initiate env dets).tracks = seedList env st.next_id dets ∧
    (st.initiate env dets).next_id = st.next_id + dets.length ∧
    (st.initiate env dets).tracks.length = dets.length := by
  have h := initiate_run env dets st.next_id [] (by simp [keys])
  unfold MT.initiate
  have hst : ({ st with tracks := [] } : MT σ F) = ⟨st.next_id, []⟩ := rfl
  rw [hst, h]
  simp [seedList_length]

theorem fuseMotion_getD (cost motionDist : List ℚ) (label : ℤ) (detLabels : List ℤ)
    (maxM maxF w : ℚ) (j : ℕ) (h1 : j < cost.length) (h2 : j < motionDist.length)
    (h3 : j < detLabels.length) :
    (fuseMotion cost motionDist label detLabels maxM maxF w).getD j 0 =
      if cost.getD j 0 > maxF ∨ motionDist.getD j 0 > maxM ∨ label ≠ detLabels.getD j 0
      then INF_COST
      else (1 - w) * cost.getD j 0 + w * motionDist.getD j 0 := by
  have hz2 : j < (motionDist.zip detLabels).length := by
    rw [List.length_zip]
    omega
  have hz : j < (cost.zip (motionDist.zip detLabels)).length := by
    rw [List.length_zip, List.length_zip]
    omega
  have hm : j < ((cost.zip (motionDist.zip detLabels)).map (fun p =>
      if p.1 > maxF ∨ p.2.1 > maxM ∨ label ≠ p.2.2 then INF_COST
      else (1 - w) * p.1 + w * p.2.1)).length := by
    rw [List.length_map]
    exact hz
  rw [fuseMotion, List.getD_eq_getElem _ _ hm, List.getElem_map, List.getElem_zip,
    List.getElem_zip, List.getD_eq_getElem _ _ h1, List.getD_eq_getElem _ _ h2,
    List.getD_eq_getElem _ _ h3]

/-- C1: every stage-1 cost-matrix entry is `INF_COST` when the feature
distance exceeds `max_feature_cost`, or the motion distance exceeds
`max_motion_cost`, or the track's label differs from the detection's label;
otherwise it is the convex combination
`(1 − motion_weight)·f + motion_weight·m`. -/
theorem stage1_fused_cost_gate {σ F : Type} (env : Env σ F) (st : MT σ F)
    (trkIds : List ℕ) (dets : List Detection) (embs : List F) (i j : ℕ)
    (hi : i < trkIds.length) (hj : j < dets.length) (hlen : embs.length = dets.length) :
    (st.matchingCost env trkIds dets embs).ent i j =
      (let tr := getTrack env st (trkIds.getD i 0)
       let det := dets.getD j d0
       let f := env.metric (env.smooth tr.features) (embs.getD j env.f0)
       let m := env.kf.motionDistance tr.state det.bbox
       if f > env.cfg.max_feature_cost ∨ m > env.cfg.max_motion_cost ∨ tr.label ≠ det.label
       then INF_COST
       else (1 - env.cfg.motion_weight) * f + env.cfg.motion_weight * m) := by
  have hpos : ¬ (trkIds.length = 0 ∨ dets.length = 0) := by omega
  rw [MT.matchingCost, if_neg hpos]
  show ((trkIds.map _).getD i []).getD j 0 = _
  have hi' : i < (trkIds.map (fun tid =>
      fuseMotion (embs.map fun e => env.metric (env.smooth (getTrack env st tid).features) e)
        (dets.map fun d => env.kf.motionDistance (getTrack env st tid).state d.bbox)
        (getTrack env st tid).label (dets.map (·.label))
        env.cfg.max_motion_cost env.cfg.max_feature_cost env.cfg.motion_weight)).length := by
    rw [List.length_map]; exact hi
  rw [List.getD_eq_getElem _ _ hi', List.getElem_map]
  have hje : j < embs.length := by omega
  rw [fuseMotion_getD _ _ _ _ _ _ _ j (by rw [List.length_map]; exact hje)
    (by rw [List.length_map]; exact hj) (by rw [List.length_map]; exact hj)]
  rw [List.getD_eq_getElem _ _ (by rw [List.length_map]; exact hje : j < (embs.map _).length),
    List.getElem_map]
  rw [List.getD_eq_getElem _ _ (by rw [List.length_map]; exact hj : j < (dets.map (fun d => env.kf.motionDistance (getTrack env st trkIds[i]).state d.bbox)).length),
    List.getElem_map]
  rw [List.getD_eq_getElem _ _ (by rw [List.length_map]; exact hj : j < (dets.map (·.label)).length),
    List.getElem_map]
  rw [List.getD_eq_getElem trkIds _ hi, List.getD_eq_getElem dets _ hj,
    List.getD_eq_getElem embs _ hje]

/-- Closed instance of the C1 theorem: a one-track, one-detection stage-1
matrix whose single entry is the ungated convex combination. -/
theorem stage1_fused_cost_gate_holds :
    (0 : ℕ) < 1 ∧
    ((⟨7, [(3, trT 3 0 true ⟨0, 0, 2, 2⟩)]⟩ : MT Unit ℚ).matchingCost tenv [3]
      [⟨0, ⟨0, 0, 2, 2⟩, 1⟩] [2]).ent 0 0 = 1/2 := by
  constructor
  · decide
  · rw [stage1_fused_cost_gate tenv _ [3] _ [2] 0 0 (by decide) (by decide) (by decide)]
    norm_num [tenv, cfgT, trT, kfU, getTrack, alookup, INF_COST, d0, List.getD]

theorem keys_filterMap_sub {α β : Type} (g : ℕ → α → Option β) (m : List (ℕ × α)) :
    ∀ id ∈ keys (m.filterMap (fun p => (g p.1 p.2).map (fun b => (p.1, b)))), id ∈ keys m := by
  induction m with
  | nil => simp [keys]
  | cons p rest ih =>
    obtain ⟨k, v⟩ := p
    intro id hid
    rw [keys_cons, List.mem_cons]
    rw [List.filterMap_cons] at hid
    cases hg : g k v with
    | none =>
      rw [hg] at hid
      simp only [Option.map_none'] at hid
      exact Or.inr (ih id hid)
    | some b =>
      rw [hg] at hid
      simp only [Option.map_some'] at hid
      rw [keys_cons, List.mem_cons] at hid
      rcases hid with h | h
      · exact Or.inl h
      · exact Or.inr (ih id h)

theorem alookup_filterMap {α β : Type} (g : ℕ → α → Option β) (m : List (ℕ × α)) (id : ℕ)
    (hnd : (keys m).Nodup) :
    alookup (m.filterMap (fun p => (g p.1 p.2).map (fun b => (p.1, b)))) id =
      (alookup m id).bind (g id) := by
  induction m with
  | nil => rfl
  | cons p rest ih =>
    obtain ⟨k, v⟩ := p
    rw [keys_cons, List.nodup_cons] at hnd
    rw [List.filterMap_cons, alookup_cons]
    by_cases hk : k = id
    · subst hk
      cases hg : g k v with
      | none =>
        simp only [hg, Option.map_none', if_true, Option.some_bind]
        rw [alookup_eq_none]
        intro hc
        exact hnd.1 (keys_filterMap_sub g rest k hc)
      | some b =>
        simp only [hg, Option.map_some', alookup_cons, if_true, Option.some_bind]
    · cases hg : g k v with
      | none =>
        simp only [hg, Option.map_none']
        rw [if_neg hk]
        exact ih hnd.2
      | some b =>
        simp only [hg, Option.map_some', alookup_cons]
        rw [if_neg hk, if_neg hk]
        exact ih hnd.2

/-- C5: warm-up behaviour of the per-frame motion step with a present
homography, for a track whose incremented `frames_since_acquired` is still
at most `n_init`: a missing flow hint removes the track; with a hint, the
`n_init`-th frame initialises the estimator state from
`(init_bbox, hint)`, and earlier frames warp `init_bbox` by the homography
and adopt the hint as the new bbox. -/
theorem warmup_propagation {σ F : Type} (env : Env σ F) (st : MT σ F)
    (flow : ℕ → Option Rect) (H : Rect → Rect) (id : ℕ) (tr : Track σ F)
    (hnd : (keys st.tracks).Nodup) (hmem : alookup st.tracks id = some tr)
    (hw : tr.frames_since_acquired + 1 ≤ env.cfg.n_init) :
    (flow id = none → alookup (st.trackStep env flow (some H)).tracks id = none) ∧
    (∀ fb, flow id = some fb → tr.frames_since_acquired + 1 = env.cfg.n_init →
      alookup (st.trackStep env flow (some H)).tracks id =
        some { tr with frames_since_acquired := tr.frames_since_acquired + 1,
                       state := env.kf.initiate tr.init_bbox fb }) ∧
    (∀ fb, flow id = some fb → tr.frames_since_acquired + 1 < env.cfg.n_init →
      alookup (st.trackStep env flow (some H)).tracks id =
        some { tr with frames_since_acquired := tr.frames_since_acquired + 1,
                       init_bbox := H tr.init_bbox, bbox := fb }) := by
  have hstep : alookup (st.trackStep env flow (some H)).tracks id =
      (alookup st.tracks id).bind (fun trk => propagateOne env H (flow id) trk) := by
    show alookup (st.tracks.filterMap _) id = _
    exact alookup_filterMap (fun k trk => propagateOne env H (flow k) trk) st.tracks id hnd
  rw [hstep, hmem, Option.some_bind]
  refine ⟨?_, ?_, ?_⟩
  · intro hfl
    rw [hfl]
    unfold propagateOne
    rw [if_pos (by simpa using hw)]
  · intro fb hfl heq
    rw [hfl]
    unfold propagateOne
    rw [if_pos (by simpa using hw)]
    simp [heq]
  · intro fb hfl hlt
    rw [hfl]
    unfold propagateOne
    rw [if_pos (by simpa using hw)]
    have hne : ¬ tr.frames_since_acquired + 1 = env.cfg.n_init := by omega
    simp [hne]

/-- Closed instance of the C5 theorem: a fresh warm-up track one frame into
its life adopts the flow hint and keeps its estimator uninitialised. -/
theorem warmup_propagation_holds :
    alookup ((⟨5, [(1, newTrack tenv 0 ⟨0, 0, 2, 2⟩ 1)]⟩ : MT Unit ℚ).trackStep tenv flowW
        (some (fun r => r))).tracks 1 =
      some { newTrack tenv 0 ⟨0, 0, 2, 2⟩ 1 with
               frames_since_acquired := 1
               init_bbox := ⟨0, 0, 2, 2⟩
               bbox := ⟨1, 1, 2, 2⟩ } :=
  (warmup_propagation tenv ⟨5, [(1, newTrack tenv 0 ⟨0, 0, 2, 2⟩ 1)]⟩ flowW (fun r => r) 1
    (newTrack tenv 0 ⟨0, 0, 2, 2⟩ 1) (by decide) (by rfl) (by decide)).2.2 ⟨1, 1, 2, 2⟩ rfl (by decide)

theorem foldr_max_zero_le (l : List ℚ) (x : ℚ) (hx : x ∈ l) : x ≤ l.foldr max 0 := by
  induction l with
  | nil => simp at hx
  | cons v rest ih =>
    rw [List.foldr_cons]
    rcases List.mem_cons.mp hx with h | h
    · rw [h]; exact le_max_left _ _
    · exact le_trans (ih h) (le_max_right _ _)

theorem foldr_max_zero_mem (l : List ℚ) : l.foldr max 0 = 0 ∨ l.foldr max 0 ∈ l := by
  induction l with
  | nil => left; rfl
  | cons v rest ih =>
    rw [List.foldr_cons]
    rcases max_choice v (rest.foldr max 0) with h | h
    · right; rw [h]; exact List.mem_cons_self v rest
    · rw [h]
      rcases ih with h2 | h2
      · left; exact h2
      · right; exact List.mem_cons_of_mem _ h2

theorem iou_nonneg (a b : Rect) : 0 ≤ iou a b := by
  unfold iou
  by_cases h : (0:ℚ) < areaR a + areaR b -
      max 0 (min a.xmax b.xmax - max a.xmin b.xmin) * max 0 (min a.ymax b.ymax - max a.ymin b.ymin)
  · rw [if_pos h]
    exact div_nonneg (mul_nonneg (le_max_left 0 _) (le_max_left 0 _)) (le_of_lt h)
  · rw [if_neg h]

theorem maxOverlaps_spec {σ F : Type} (env : Env σ F) (st : MT σ F)
    (ms : List (ℕ × ℕ)) (trkIds : List ℕ) (dets : List Detection) (k : ℕ)
    (hk : k < ms.length) :
    (∀ v ∈ (trkIds.filter (fun c => c ≠ (ms.getD k (0, 0)).1)).map
        (fun c => iou (dets.getD (ms.getD k (0, 0)).2 d0).bbox (getTrack env st c).bbox),
      v ≤ (st.maxOverlaps env ms trkIds dets).getD k 0) ∧
    ((st.maxOverlaps env ms trkIds dets).getD k 0 = 0 ∨
      (st.maxOverlaps env ms trkIds dets).getD k 0 ∈
        (trkIds.filter (fun c => c ≠ (ms.getD k (0, 0)).1)).map
          (fun c => iou (dets.getD (ms.getD k (0, 0)).2 d0).bbox (getTrack env st c).bbox)) ∧
    ((trkIds.filter (fun c => c ≠ (ms.getD k (0, 0)).1)) = [] →
      (st.maxOverlaps env ms trkIds dets).getD k 0 = 0) := by
  unfold MT.maxOverlaps
  by_cases hdeg : trkIds.length = 0 ∨ ms.length = 0
  · rw [if_pos hdeg]
    have htr : trkIds = [] := by
      rcases hdeg with h | h
      · exact List.length_eq_zero.mp h
      · omega
    subst htr
    have hz : ((ms.map fun _ => (0:ℚ)).getD k 0) = 0 := by
      rw [List.getD_eq_getElem _ _ (by rw [List.length_map]; exact hk), List.getElem_map]
    simp [hz]
  · rw [if_neg hdeg]
    have hg : ((ms.map fun m =>
        ((trkIds.filter fun c => c ≠ m.1).map
          (fun c => iou (dets.getD m.2 d0).bbox (getTrack env st c).bbox)).foldr max 0).getD k 0) =
        ((trkIds.filter fun c => c ≠ (ms.getD k (0, 0)).1).map
          (fun c => iou (dets.getD (ms.getD k (0, 0)).2 d0).bbox (getTrack env st c).bbox)).foldr max 0 := by
      rw [List.getD_eq_getElem _ _ (by rw [List.length_map]; exact hk), List.getElem_map,
        List.getD_eq_getElem _ _ hk]
    rw [hg]
    refine ⟨?_, ?_, ?_⟩
    · intro v hv
      exact foldr_max_zero_le _ v hv
    · exact foldr_max_zero_mem _
    · intro hnil
      rw [hnil]
      rfl

/-- C8: for every match produced by one `update` call, the computed
`max_overlap` is the maximum (with initial value 0) of the IoU between the
matched detection's bbox and the bboxes — as held at the start of the call,
before any of this call's detector measurement updates — of the confirmed
tracks (the snapshot taken at the start of the call) other than the matched
track itself; in particular it is exactly 0 when no other confirmed track is
present. -/
theorem max_overlap_over_other_confirmed {σ F : Type} (env : Env σ F) (st : MT σ F)
    (dets : List Detection) (embs : List F) (k : ℕ)
    (hk : k < (st.updateParts env dets embs).matchesAll.length) :
    (∀ v ∈ (((st.updateParts env dets embs).confirmedIds.filter
        (fun c => c ≠ ((st.updateParts env dets embs).matchesAll.getD k (0, 0)).1)).map
        (fun c => iou (dets.getD ((st.updateParts env dets embs).matchesAll.getD k (0, 0)).2 d0).bbox
          (getTrack env st c).bbox)),
      v ≤ (st.updateParts env dets embs).overlaps.getD k 0) ∧
    ((st.updateParts env dets embs).overlaps.getD k 0 = 0 ∨
      (st.updateParts env dets embs).overlaps.getD k 0 ∈
        (((st.updateParts env dets embs).confirmedIds.filter
          (fun c => c ≠ ((st.updateParts env dets embs).matchesAll.getD k (0, 0)).1)).map
          (fun c => iou (dets.getD ((st.updateParts env dets embs).matchesAll.getD k (0, 0)).2 d0).bbox
            (getTrack env st c).bbox))) ∧
    (((st.updateParts env dets embs).confirmedIds.filter
        (fun c => c ≠ ((st.updateParts env dets embs).matchesAll.getD k (0, 0)).1)) = [] →
      (st.updateParts env dets embs).overlaps.getD k 0 = 0) := by
  have hov : (st.updateParts env dets embs).overlaps =
      st.maxOverlaps env (st.updateParts env dets embs).matchesAll
        (st.updateParts env dets embs).confirmedIds dets := rfl
  rw [hov]
  exact maxOverlaps_spec env st _ _ dets k hk

/-- Closed instance of the C8 theorem: a stage-1 match with no other
confirmed track present gets `max_overlap` exactly 0. -/
theorem max_overlap_over_other_confirmed_holds :
    ((⟨5, [(1, trT 1 0 true ⟨0, 0, 2, 2⟩)]⟩ : MT Unit ℚ).updateParts tenv
      [⟨0, ⟨0, 0, 2, 2⟩, 1⟩] [1]).overlaps.getD 0 0 = 0 :=
  (max_overlap_over_other_confirmed tenv ⟨5, [(1, trT 1 0 true ⟨0, 0, 2, 2⟩)]⟩
    [⟨0, ⟨0, 0, 2, 2⟩, 1⟩] [1] 0
    (by norm_num [MT.updateParts, MT.matchingCost, linearAssignment, diagSolver, keepPair,
      fuseMotion, MT.iouCost, getTrack, alookup, tenv, cfgT, kfU, trT,
      INF_COST, d0, keys, List.filter, List.range, List.range.loop])).2.2
    (by norm_num [MT.updateParts, MT.matchingCost, linearAssignment, diagSolver, keepPair,
      fuseMotion, MT.iouCost, getTrack, alookup, tenv, cfgT, kfU, trT,
      INF_COST, d0, keys, List.filter, List.range, List.range.loop])

theorem range_map_getD {α : Type} (l : List α) (dflt : α) :
    (List.range l.length).map (fun i => l.getD i dflt) = l := by
  apply List.ext_getElem
  · simp
  · intro i h1 h2
    rw [List.getElem_map, List.getElem_range, List.getD_eq_getElem _ _ h2]

/-- C7 (amended): at a matching stage with an empty track side or an empty
detection side, the result is empty matches with every row identifier and
every column identifier reported unmatched — for any solver whose output is
a valid in-range assignment, which on a 0-row or 0-column matrix is
necessarily the empty pair list. (The claim's further assertion that the
bipartite solver is **not invoked** on such inputs is refuted separately:
`_linear_assignment` calls `linear_sum_assignment` unconditionally, and the
companion counterexample shows the stage's output depends on the solver's
output at the degenerate matrix.) -/
theorem degenerate_assignment_all_unmatched (solver : Mat → Bool → List (ℕ × ℕ))
    (cost : Mat) (trkIds detIds : List ℕ) (maximize : Bool)
    (hs : SolverOK solver) (hr : cost.r = trkIds.length) (hc : cost.c = detIds.length)
    (hdeg : trkIds = [] ∨ detIds = []) :
    linearAssignment solver cost trkIds detIds maximize = ([], trkIds, detIds) := by
  have hpairs : solver cost maximize = [] := by
    rw [List.eq_nil_iff_forall_not_mem]
    intro p hp
    have hb := (hs cost maximize).2.2 p hp
    rcases hdeg with h | h
    · rw [h] at hr
      simp at hr
      omega
    · rw [h] at hc
      simp at hc
      omega
  unfold linearAssignment
  rw [hpairs]
  simp only [List.map_nil, List.filter_nil, List.not_mem_nil, not_false_eq_true,
    List.append_nil, List.nil_append]
  have hfil : ∀ n : ℕ, (List.range n).filter (fun _ => decide True) = List.range n := by
    intro n
    rw [List.filter_eq_self]
    intro a ha
    rfl
  rw [hfil, hfil, hr, hc, range_map_getD, range_map_getD]

/-- Closed instance of the amended C7 theorem: a 0-row stage with one
detection yields no matches, no unmatched tracks, and the detection
unmatched. -/
theorem degenerate_assignment_all_unmatched_holds :
    linearAssignment emptySolver ⟨0, 1, fun _ _ => 0⟩ [] [0] false = ([], [], [0]) :=
  degenerate_assignment_all_unmatched emptySolver ⟨0, 1, fun _ _ => 0⟩ [] [0] false
    solverOK_empty rfl rfl (Or.inl rfl)

/-- C7 counterexample: the solver **is** invoked on a degenerate matrix.
`_linear_assignment` calls `linear_sum_assignment` unconditionally, so its
result depends on the solver's output at the 0-row matrix: a solver that
(contrary to the scipy contract) reports a pair there changes the stage's
result, which would be impossible if the solver were not consulted. -/
theorem degenerate_assignment_consults_solver :
    linearAssignment junkSolver ⟨0, 1, fun _ _ => 0⟩ [] [0] false ≠
      linearAssignment emptySolver ⟨0, 1, fun _ _ => 0⟩ [] [0] false := by
  decide

/-- C6 (amended): for a matched pair applied in `update` whose
post-measurement bbox stays inside the frame, the track's feature buffer is
updated with the detection's embedding if and only if the pair's
`max_overlap` is **at most** (`<=`, not strictly below) the configured
threshold `max_feature_overlap`, or the track is not yet confirmed; a
confirmed track with `max_overlap` strictly above the threshold keeps its
buffer unchanged. (The original claim's strict "below" fails at equality:
the code's guard is `max_overlap <= self.max_feature_overlap`.) -/
theorem matched_feature_absorption {σ F : Type} (env : Env σ F) (st : MT σ F)
    (dets : List Detection) (embs : List F) (tid did : ℕ) (mo : ℚ) (tr : Track σ F)
    (hl : alookup st.tracks tid = some tr)
    (hin : (rectInter (env.kf.stateBBox (env.kf.update tr.state (dets.getD did d0).bbox
      MeasType.DETECTOR)) env.frame_rect).isSome) :
    (alookup (applyMatchStep env dets embs st ((tid, did), mo)).tracks tid).map
      Track.features =
      some (if mo ≤ env.cfg.max_feature_overlap ∨ tr.confirmed = false
            then updateFeatures env.cfg.feature_buf_size tr.features (embs.getD did env.f0)
            else tr.features) := by
  have hkey : tid ∈ keys st.tracks := by
    have := alookup_mem st.tracks tid tr hl
    exact List.mem_map_of_mem Prod.fst this
  obtain ⟨ib, hib⟩ := Option.isSome_iff_exists.mp hin
  unfold applyMatchStep
  rw [hl]
  simp only [hib]
  rw [alookup_setKey_self _ _ _ hkey]
  by_cases hcond : mo ≤ env.cfg.max_feature_overlap ∨ tr.confirmed = false
  · rw [if_pos hcond, if_pos hcond]
    by_cases hconf : tr.confirmed = false
    · rw [if_pos hconf]
      rfl
    · rw [if_neg hconf]
      rfl
  · rw [if_neg hcond, if_neg hcond]
    by_cases hconf : tr.confirmed = false
    · rw [if_pos hconf]
      rfl
    · rw [if_neg hconf]
      rfl

/-- Closed instance of the amended C6 theorem: an unconfirmed matched track
absorbs the detection's embedding even with `max_overlap` above the
threshold. -/
theorem matched_feature_absorption_holds :
    (alookup (applyMatchStep tenv [⟨0, ⟨0, 0, 2, 2⟩, 1⟩] [7]
        (⟨5, [(1, trT 1 0 false ⟨0, 0, 2, 2⟩)]⟩ : MT Unit ℚ) ((1, 0), 5)).tracks 1).map
      Track.features = some [7, 1] :=
  matched_feature_absorption tenv ⟨5, [(1, trT 1 0 false ⟨0, 0, 2, 2⟩)]⟩
    [⟨0, ⟨0, 0, 2, 2⟩, 1⟩] [7] 1 0 5 (trT 1 0 false ⟨0, 0, 2, 2⟩) rfl (by decide)

/-- C6 counterexample: with `max_overlap` exactly equal to
`max_feature_overlap` (here both 0) and a confirmed track, the code's `<=`
guard absorbs the embedding — the buffer changes from `[1]` to `[7, 1]` —
while the claim's strict "below" gate says a confirmed track with
`max_overlap` not below the threshold keeps its buffer unchanged. -/
theorem strict_overlap_gate_refuted :
    (trT 1 0 true ⟨0, 0, 2, 2⟩).confirmed = true ∧
    ¬ ((0 : ℚ) < tenv.cfg.max_feature_overlap) ∧
    (trT 1 0 true ⟨0, 0, 2, 2⟩).features = [1] ∧
    (alookup (applyMatchStep tenv [⟨0, ⟨0, 0, 2, 2⟩, 1⟩] [7]
        (⟨5, [(1, trT 1 0 true ⟨0, 0, 2, 2⟩)]⟩ : MT Unit ℚ) ((1, 0), 0)).tracks 1).map
      Track.features = some [7, 1] := by
  refine ⟨rfl, by decide, rfl, ?_⟩
  decide

theorem matchingCost_r {σ F : Type} (env : Env σ F) (st : MT σ F)
    (trkIds : List ℕ) (dets : List Detection) (embs : List F) :
    (st.matchingCost env trkIds dets embs).r = trkIds.length := by
  unfold MT.matchingCost
  split <;> rfl

theorem iouCost_r {σ F : Type} (env : Env σ F) (st : MT σ F)
    (trkIds : List ℕ) (dets : List Detection) :
    (st.iouCost env trkIds dets).r = trkIds.length := by
  unfold MT.iouCost
  split <;> rfl

theorem maxOverlaps_length {σ F : Type} (env : Env σ F) (st : MT σ F)
    (ms : List (ℕ × ℕ)) (trkIds : List ℕ) (dets : List Detection) :
    (st.maxOverlaps env ms trkIds dets).length = ms.length := by
  unfold MT.maxOverlaps
  split <;> simp

theorem linAssign_matches_eq (solver : Mat → Bool → List (ℕ × ℕ)) (cost : Mat)
    (trkIds detIds : List ℕ) (maximize : Bool) :
    (linearAssignment solver cost trkIds detIds maximize).1 =
      ((solver cost maximize).filter (keepPair cost maximize)).map
        (fun p => (trkIds.getD p.1 0, detIds.getD p.2 0)) := rfl

theorem linAssign_unmatched_eq (solver : Mat → Bool → List (ℕ × ℕ)) (cost : Mat)
    (trkIds detIds : List ℕ) (maximize : Bool) :
    (linearAssignment solver cost trkIds detIds maximize).2.1 =
      ((List.range cost.r).filter
        (fun i => ¬ i ∈ (solver cost maximize).map Prod.fst)).map (fun i => trkIds.getD i 0) ++
      ((solver cost maximize).filter
        (fun p => ¬ keepPair cost maximize p)).map (fun p => trkIds.getD p.1 0) := rfl

theorem linAssign_cover (solver : Mat → Bool → List (ℕ × ℕ)) (cost : Mat)
    (trkIds detIds : List ℕ) (maximize : Bool)
    (hr : cost.r = trkIds.length) :
    ∀ x ∈ trkIds,
      x ∈ (linearAssignment solver cost trkIds detIds maximize).1.map Prod.fst ∨
      x ∈ (linearAssignment solver cost trkIds detIds maximize).2.1 := by
  intro x hx
  obtain ⟨i, hi, hxi⟩ := List.mem_iff_getElem.mp hx
  by_cases hrow : i ∈ (solver cost maximize).map Prod.fst
  · obtain ⟨p, hp, hpi⟩ := List.mem_map.mp hrow
    by_cases hkeep : keepPair cost maximize p = true
    · left
      rw [linAssign_matches_eq, List.map_map]
      refine List.mem_map.mpr ⟨p, List.mem_filter.mpr ⟨hp, hkeep⟩, ?_⟩
      show trkIds.getD p.1 0 = x
      rw [hpi, List.getD_eq_getElem _ _ hi, hxi]
    · right
      rw [linAssign_unmatched_eq]
      refine List.mem_append.mpr (Or.inr ?_)
      refine List.mem_map.mpr ⟨p, List.mem_filter.mpr ⟨hp, by simpa using hkeep⟩, ?_⟩
      show trkIds.getD p.1 0 = x
      rw [hpi, List.getD_eq_getElem _ _ hi, hxi]
  · right
    rw [linAssign_unmatched_eq]
    refine List.mem_append.mpr (Or.inl ?_)
    refine List.mem_map.mpr ⟨i, List.mem_filter.mpr ⟨List.mem_range.mpr (hr ▸ hi), by simpa using hrow⟩, ?_⟩
    rw [List.getD_eq_getElem _ _ hi, hxi]

theorem getD_inj {α : Type} (l : List α) (d : α) (hnd : l.Nodup) (i j : ℕ)
    (hi : i < l.length) (hj : j < l.length) (h : l.getD i d = l.getD j d) : i = j := by
  rw [List.getD_eq_getElem _ _ hi, List.getD_eq_getElem _ _ hj] at h
  exact (List.Nodup.getElem_inj_iff hnd).mp h

theorem linAssign_matches_sub (solver : Mat → Bool → List (ℕ × ℕ)) (cost : Mat)
    (trkIds detIds : List ℕ) (maximize : Bool)
    (hr : cost.r = trkIds.length)
    (hin : ∀ p ∈ solver cost maximize, p.1 < cost.r) :
    ∀ x ∈ (linearAssignment solver cost trkIds detIds maximize).1.map Prod.fst,
      x ∈ trkIds := by
  intro x hx
  rw [linAssign_matches_eq, List.map_map] at hx
  obtain ⟨p, hpf, hpx⟩ := List.mem_map.mp hx
  have hp : p ∈ solver cost maximize := (List.mem_filter.mp hpf).1
  have hp1 : p.1 < trkIds.length := hr ▸ hin p hp
  have hget : trkIds.getD p.1 0 = x := hpx
  rw [List.getD_eq_getElem _ _ hp1] at hget
  exact hget ▸ List.getElem_mem hp1

theorem linAssign_unmatched_sub (solver : Mat → Bool → List (ℕ × ℕ)) (cost : Mat)
    (trkIds detIds : List ℕ) (maximize : Bool)
    (hr : cost.r = trkIds.length)
    (hin : ∀ p ∈ solver cost maximize, p.1 < cost.r) :
    ∀ x ∈ (linearAssignment solver cost trkIds detIds maximize).2.1, x ∈ trkIds := by
  intro x hx
  rw [linAssign_unmatched_eq] at hx
  rcases List.mem_append.mp hx with hx | hx
  · obtain ⟨i, hif, hix⟩ := List.mem_map.mp hx
    have hi1 : i < cost.r := List.mem_range.mp (List.mem_filter.mp hif).1
    have hi2 : i < trkIds.length := hr ▸ hi1
    rw [List.getD_eq_getElem _ _ hi2] at hix
    exact hix ▸ List.getElem_mem hi2
  · obtain ⟨q, hqf, hqx⟩ := List.mem_map.mp hx
    have hq1 : q.1 < trkIds.length := hr ▸ hin q (List.mem_filter.mp hqf).1
    have hget : trkIds.getD q.1 0 = x := hqx
    rw [List.getD_eq_getElem _ _ hq1] at hget
    exact hget ▸ List.getElem_mem hq1

theorem linAssign_disjoint (solver : Mat → Bool → List (ℕ × ℕ)) (cost : Mat)
    (trkIds detIds : List ℕ) (maximize : Bool)
    (hr : cost.r = trkIds.length) (hnd : trkIds.Nodup)
    (hrows : ((solver cost maximize).map Prod.fst).Nodup)
    (hin : ∀ p ∈ solver cost maximize, p.1 < cost.r) :
    ∀ x ∈ (linearAssignment solver cost trkIds detIds maximize).1.map Prod.fst,
      ¬ x ∈ (linearAssignment solver cost trkIds detIds maximize).2.1 := by
  intro x hxm hxu
  rw [linAssign_matches_eq, List.map_map] at hxm
  obtain ⟨p, hpf, hpx⟩ := List.mem_map.mp hxm
  have hp : p ∈ solver cost maximize := (List.mem_filter.mp hpf).1
  have hpk : keepPair cost maximize p = true := (List.mem_filter.mp hpf).2
  have hp1 : p.1 < trkIds.length := hr ▸ hin p hp
  have hpx' : trkIds.getD p.1 0 = x := hpx
  rw [linAssign_unmatched_eq] at hxu
  rcases List.mem_append.mp hxu with hxu | hxu
  · obtain ⟨i, hif, hix⟩ := List.mem_map.mp hxu
    have hi1 : i < cost.r := List.mem_range.mp (List.mem_filter.mp hif).1
    have hi2 : ¬ i ∈ (solver cost maximize).map Prod.fst := by
      simpa using (List.mem_filter.mp hif).2
    have heq : i = p.1 :=
      getD_inj trkIds 0 hnd i p.1 (hr ▸ hi1) hp1 (hix.trans hpx'.symm)
    exact hi2 (heq ▸ List.mem_map_of_mem Prod.fst hp)
  · obtain ⟨q, hqf, hqx⟩ := List.mem_map.mp hxu
    have hq : q ∈ solver cost maximize := (List.mem_filter.mp hqf).1
    have hqk : ¬ keepPair cost maximize q = true := by
      simpa using (List.mem_filter.mp hqf).2
    have hq1 : q.1 < trkIds.length := hr ▸ hin q hq
    have hqx' : trkIds.getD q.1 0 = x := hqx
    have heq : q.1 = p.1 :=
      getD_inj trkIds 0 hnd q.1 p.1 hq1 hp1 (hqx'.trans hpx'.symm)
    have : q = p := List.inj_on_of_nodup_map hrows hq hp heq
    exact hqk (this ▸ hpk)

theorem linAssign_unmatched_nodup (solver : Mat → Bool → List (ℕ × ℕ)) (cost : Mat)
    (trkIds detIds : List ℕ) (maximize : Bool)
    (hr : cost.r = trkIds.length) (hnd : trkIds.Nodup)
    (hrows : ((solver cost maximize).map Prod.fst).Nodup)
    (hin : ∀ p ∈ solver cost maximize, p.1 < cost.r) :
    (linearAssignment solver cost trkIds detIds maximize).2.1.Nodup := by
  rw [linAssign_unmatched_eq]
  have hpairs_nd : (solver cost maximize).Nodup := List.Nodup.of_map Prod.fst hrows
  apply List.Nodup.append
  · apply List.Nodup.map_on
    · intro i hi j hj hij
      have hi1 : i < cost.r := List.mem_range.mp (List.mem_filter.mp hi).1
      have hj1 : j < cost.r := List.mem_range.mp (List.mem_filter.mp hj).1
      exact getD_inj trkIds 0 hnd i j (hr ▸ hi1) (hr ▸ hj1) hij
    · exact List.Nodup.filter _ (List.nodup_range _)
  · apply List.Nodup.map_on
    · intro p hp q hq hpq
      have hpm : p ∈ solver cost maximize := (List.mem_filter.mp hp).1
      have hqm : q ∈ solver cost maximize := (List.mem_filter.mp hq).1
      have hp1 : p.1 < trkIds.length := hr ▸ hin p hpm
      have hq1 : q.1 < trkIds.length := hr ▸ hin q hqm
      have heq : p.1 = q.1 := getD_inj trkIds 0 hnd p.1 q.1 hp1 hq1 hpq
      exact List.inj_on_of_nodup_map hrows hpm hqm heq
    · exact List.Nodup.filter _ hpairs_nd
  · intro x hx1 hx2
    obtain ⟨i, hif, hix⟩ := List.mem_map.mp hx1
    obtain ⟨q, hqf, hqx⟩ := List.mem_map.mp hx2
    have hi1 : i < cost.r := List.mem_range.mp (List.mem_filter.mp hif).1
    have hi2 : ¬ i ∈ (solver cost maximize).map Prod.fst := by
      simpa using (List.mem_filter.mp hif).2
    have hq : q ∈ solver cost maximize := (List.mem_filter.mp hqf).1
    have hq1 : q.1 < trkIds.length := hr ▸ hin q hq
    have heq : i = q.1 :=
      getD_inj trkIds 0 hnd i q.1 (hr ▸ hi1) hq1 (hix.trans hqx.symm)
    exact hi2 (heq ▸ List.mem_map_of_mem Prod.fst hq)

theorem parts_confirmed {σ F : Type} (env : Env σ F) (st : MT σ F)
    (dets : List Detection) (embs : List F) :
    (st.updateParts env dets embs).confirmedIds =
      (st.tracks.filter (fun p => p.2.confirmed = true)).map Prod.fst := rfl

theorem parts_unconfirmed {σ F : Type} (env : Env σ F) (st : MT σ F)
    (dets : List Detection) (embs : List F) :
    (st.updateParts env dets embs).unconfirmedIds =
      (st.tracks.filter (fun p => ¬ p.2.confirmed = true)).map Prod.fst := rfl

theorem parts_stage1 {σ F : Type} (env : Env σ F) (st : MT σ F)
    (dets : List Detection) (embs : List F) :
    ((st.updateParts env dets embs).matchesA, (st.updateParts env dets embs).uTrkA0,
      (st.updateParts env dets embs).uDetA) =
      linearAssignment env.solver
        (st.matchingCost env (st.updateParts env dets embs).confirmedIds dets embs)
        (st.updateParts env dets embs).confirmedIds (List.range dets.length) false := rfl

theorem parts_candidates {σ F : Type} (env : Env σ F) (st : MT σ F)
    (dets : List Detection) (embs : List F) :
    (st.updateParts env dets embs).candidates =
      (st.updateParts env dets embs).unconfirmedIds ++
        (st.updateParts env dets embs).uTrkA0.filter
          (fun tid => (getTrack env st tid).age = 0) := rfl

theorem parts_uTrkA {σ F : Type} (env : Env σ F) (st : MT σ F)
    (dets : List Detection) (embs : List F) :
    (st.updateParts env dets embs).uTrkA =
      (st.updateParts env dets embs).uTrkA0.filter
        (fun tid => ¬ (getTrack env st tid).age = 0) := rfl

theorem parts_stage2 {σ F : Type} (env : Env σ F) (st : MT σ F)
    (dets : List Detection) (embs : List F) :
    ((st.updateParts env dets embs).matchesB, (st.updateParts env dets embs).uTrkB,
      (st.updateParts env dets embs).uDet) =
      linearAssignment env.solver
        (st.iouCost env (st.updateParts env dets embs).candidates
          ((st.updateParts env dets embs).uDetA.map (fun did => dets.getD did d0)))
        (st.updateParts env dets embs).candidates (st.updateParts env dets embs).uDetA
        true := rfl

theorem parts_matchesAll {σ F : Type} (env : Env σ F) (st : MT σ F)
    (dets : List Detection) (embs : List F) :
    (st.updateParts env dets embs).matchesAll =
      (st.updateParts env dets embs).matchesA ++ (st.updateParts env dets embs).matchesB := rfl

theorem parts_uTrk {σ F : Type} (env : Env σ F) (st : MT σ F)
    (dets : List Detection) (embs : List F) :
    (st.updateParts env dets embs).uTrk =
      (st.updateParts env dets embs).uTrkA ++ (st.updateParts env dets embs).uTrkB := rfl

theorem parts_overlaps {σ F : Type} (env : Env σ F) (st : MT σ F)
    (dets : List Detection) (embs : List F) :
    (st.updateParts env dets embs).overlaps =
      st.maxOverlaps env (st.updateParts env dets embs).matchesAll
        (st.updateParts env dets embs).confirmedIds dets := rfl

theorem update_eq {σ F : Type} (env : Env σ F) (st : MT σ F)
    (dets : List Detection) (embs : List F) :
    st.update env dets embs =
      cleanupLost env.cfg.max_age
        (registerNew env dets
          (applyMatches env dets embs st
            ((st.updateParts env dets embs).matchesAll.zip (st.updateParts env dets embs).overlaps))
          (st.updateParts env dets embs).uDet)
        (st.updateParts env dets embs).uTrk := rfl

theorem confirmed_nodup {σ F : Type} (env : Env σ F) (st : MT σ F)
    (dets : List Detection) (embs : List F) (hnd : (keys st.tracks).Nodup) :
    (st.updateParts env dets embs).confirmedIds.Nodup := by
  rw [parts_confirmed]
  exact List.Nodup.sublist (List.Sublist.map Prod.fst (List.filter_sublist st.tracks)) hnd

theorem unconfirmed_nodup {σ F : Type} (env : Env σ F) (st : MT σ F)
    (dets : List Detection) (embs : List F) (hnd : (keys st.tracks).Nodup) :
    (st.updateParts env dets embs).unconfirmedIds.Nodup := by
  rw [parts_unconfirmed]
  exact List.Nodup.sublist (List.Sublist.map Prod.fst (List.filter_sublist st.tracks)) hnd

theorem entry_unique {σ F : Type} (st : MT σ F) (hnd : (keys st.tracks).Nodup)
    (id : ℕ) (t t' : Track σ F) (h1 : (id, t) ∈ st.tracks) (h2 : (id, t') ∈ st.tracks) :
    t = t' := by
  have e1 := mem_alookup st.tracks id t hnd h1
  have e2 := mem_alookup st.tracks id t' hnd h2
  rw [e1] at e2
  exact Option.some.injEq .. ▸ e2.symm ▸ rfl

theorem confirmed_unconfirmed_disjoint {σ F : Type} (env : Env σ F) (st : MT σ F)
    (dets : List Detection) (embs : List F) (hnd : (keys st.tracks).Nodup) :
    ∀ x ∈ (st.updateParts env dets embs).confirmedIds,
      ¬ x ∈ (st.updateParts env dets embs).unconfirmedIds := by
  intro x hx1 hx2
  rw [parts_confirmed] at hx1
  rw [parts_unconfirmed] at hx2
  obtain ⟨e1, he1, hx1e⟩ := List.mem_map.mp hx1
  obtain ⟨e2, he2, hx2e⟩ := List.mem_map.mp hx2
  have hm1 := List.mem_filter.mp he1
  have hm2 := List.mem_filter.mp he2
  have hc1 : e1.2.confirmed = true := by simpa using hm1.2
  have hc2 : ¬ e2.2.confirmed = true := by simpa using hm2.2
  have hee1 : ((x, e1.2) : ℕ × Track σ F) ∈ st.tracks := by
    have : e1 = (x, e1.2) := by rw [← hx1e]
    exact this ▸ hm1.1
  have hee2 : ((x, e2.2) : ℕ × Track σ F) ∈ st.tracks := by
    have : e2 = (x, e2.2) := by rw [← hx2e]
    exact this ▸ hm2.1
  have := entry_unique st hnd x e1.2 e2.2 hee1 hee2
  rw [this] at hc1
  exact hc2 hc1

theorem keys_split {σ F : Type} (env : Env σ F) (st : MT σ F)
    (dets : List Detection) (embs : List F) :
    ∀ id ∈ keys st.tracks,
      id ∈ (st.updateParts env dets embs).confirmedIds ∨
      id ∈ (st.updateParts env dets embs).unconfirmedIds := by
  intro id hid
  obtain ⟨e, he, hide⟩ := List.mem_map.mp hid
  by_cases hc : e.2.confirmed = true
  · left
    rw [parts_confirmed]
    exact hide ▸ List.mem_map_of_mem Prod.fst (List.mem_filter.mpr ⟨he, by simpa using hc⟩)
  · right
    rw [parts_unconfirmed]
    exact hide ▸ List.mem_map_of_mem Prod.fst (List.mem_filter.mpr ⟨he, by simpa using hc⟩)

theorem parts_mA {σ F : Type} (env : Env σ F) (st : MT σ F)
    (dets : List Detection) (embs : List F) :
    (st.updateParts env dets embs).matchesA =
      (linearAssignment env.solver
        (st.matchingCost env (st.updateParts env dets embs).confirmedIds dets embs)
        (st.updateParts env dets embs).confirmedIds (List.range dets.length) false).1 := rfl

theorem parts_uA0 {σ F : Type} (env : Env σ F) (st : MT σ F)
    (dets : List Detection) (embs : List F) :
    (st.updateParts env dets embs).uTrkA0 =
      (linearAssignment env.solver
        (st.matchingCost env (st.updateParts env dets embs).confirmedIds dets embs)
        (st.updateParts env dets embs).confirmedIds (List.range dets.length) false).2.1 := rfl

theorem parts_mB {σ F : Type} (env : Env σ F) (st : MT σ F)
    (dets : List Detection) (embs : List F) :
    (st.updateParts env dets embs).matchesB =
      (linearAssignment env.solver
        (st.iouCost env (st.updateParts env dets embs).candidates
          ((st.updateParts env dets embs).uDetA.map (fun did => dets.getD did d0)))
        (st.updateParts env dets embs).candidates (st.updateParts env dets embs).uDetA
        true).1 := rfl

theorem parts_uB {σ F : Type} (env : Env σ F) (st : MT σ F)
    (dets : List Detection) (embs : List F) :
    (st.updateParts env dets embs).uTrkB =
      (linearAssignment env.solver
        (st.iouCost env (st.updateParts env dets embs).candidates
          ((st.updateParts env dets embs).uDetA.map (fun did => dets.getD did d0)))
        (st.updateParts env dets embs).candidates (st.updateParts env dets embs).uDetA
        true).2.1 := rfl

theorem uTrkA0_sub_confirmed {σ F : Type} (env : Env σ F) (st : MT σ F)
    (dets : List Detection) (embs : List F) (hs : SolverOK env.solver) :
    ∀ x ∈ (st.updateParts env dets embs).uTrkA0,
      x ∈ (st.updateParts env dets embs).confirmedIds := by
  rw [parts_uA0]
  exact linAssign_unmatched_sub env.solver _ _ _ false (matchingCost_r env st _ dets embs)
    (fun p hp => ((hs _ _).2.2 p hp).1)

theorem matchesA_sub_confirmed {σ F : Type} (env : Env σ F) (st : MT σ F)
    (dets : List Detection) (embs : List F) (hs : SolverOK env.solver) :
    ∀ x ∈ (st.updateParts env dets embs).matchesA.map Prod.fst,
      x ∈ (st.updateParts env dets embs).confirmedIds := by
  rw [parts_mA]
  exact linAssign_matches_sub env.solver _ _ _ false (matchingCost_r env st _ dets embs)
    (fun p hp => ((hs _ _).2.2 p hp).1)

theorem matchesB_sub_candidates {σ F : Type} (env : Env σ F) (st : MT σ F)
    (dets : List Detection) (embs : List F) (hs : SolverOK env.solver) :
    ∀ x ∈ (st.updateParts env dets embs).matchesB.map Prod.fst,
      x ∈ (st.updateParts env dets embs).candidates := by
  rw [parts_mB]
  exact linAssign_matches_sub env.solver _ _ _ true (iouCost_r env st _ _)
    (fun p hp => ((hs _ _).2.2 p hp).1)

theorem uTrkB_sub_candidates {σ F : Type} (env : Env σ F) (st : MT σ F)
    (dets : List Detection) (embs : List F) (hs : SolverOK env.solver) :
    ∀ x ∈ (st.updateParts env dets embs).uTrkB,
      x ∈ (st.updateParts env dets embs).candidates := by
  rw [parts_uB]
  exact linAssign_unmatched_sub env.solver _ _ _ true (iouCost_r env st _ _)
    (fun p hp => ((hs _ _).2.2 p hp).1)

theorem uTrkA0_nodup {σ F : Type} (env : Env σ F) (st : MT σ F)
    (dets : List Detection) (embs : List F) (hs : SolverOK env.solver)
    (hnd : (keys st.tracks).Nodup) :
    (st.updateParts env dets embs).uTrkA0.Nodup := by
  rw [parts_uA0]
  exact linAssign_unmatched_nodup env.solver _ _ _ false (matchingCost_r env st _ dets embs)
    (confirmed_nodup env st dets embs hnd) (hs _ _).1
    (fun p hp => ((hs _ _).2.2 p hp).1)

theorem candidates_nodup {σ F : Type} (env : Env σ F) (st : MT σ F)
    (dets : List Detection) (embs : List F) (hs : SolverOK env.solver)
    (hnd : (keys st.tracks).Nodup) :
    (st.updateParts env dets embs).candidates.Nodup := by
  rw [parts_candidates]
  apply List.Nodup.append
  · exact unconfirmed_nodup env st dets embs hnd
  · exact List.Nodup.filter _ (uTrkA0_nodup env st dets embs hs hnd)
  · intro x hx1 hx2
    have hx2' : x ∈ (st.updateParts env dets embs).uTrkA0 := (List.mem_filter.mp hx2).1
    exact confirmed_unconfirmed_disjoint env st dets embs hnd x
      (uTrkA0_sub_confirmed env st dets embs hs x hx2') hx1

theorem uTrkB_nodup {σ F : Type} (env : Env σ F) (st : MT σ F)
    (dets : List Detection) (embs : List F) (hs : SolverOK env.solver)
    (hnd : (keys st.tracks).Nodup) :
    (st.updateParts env dets embs).uTrkB.Nodup := by
  rw [parts_uB]
  exact linAssign_unmatched_nodup env.solver _ _ _ true (iouCost_r env st _ _)
    (candidates_nodup env st dets embs hs hnd) (hs _ _).1
    (fun p hp => ((hs _ _).2.2 p hp).1)

theorem stage1_disjoint {σ F : Type} (env : Env σ F) (st : MT σ F)
    (dets : List Detection) (embs : List F) (hs : SolverOK env.solver)
    (hnd : (keys st.tracks).Nodup) :
    ∀ x ∈ (st.updateParts env dets embs).matchesA.map Prod.fst,
      ¬ x ∈ (st.updateParts env dets embs).uTrkA0 := by
  rw [parts_mA, parts_uA0]
  exact linAssign_disjoint env.solver _ _ _ false (matchingCost_r env st _ dets embs)
    (confirmed_nodup env st dets embs hnd) (hs _ _).1
    (fun p hp => ((hs _ _).2.2 p hp).1)

theorem stage2_disjoint {σ F : Type} (env : Env σ F) (st : MT σ F)
    (dets : List Detection) (embs : List F) (hs : SolverOK env.solver)
    (hnd : (keys st.tracks).Nodup) :
    ∀ x ∈ (st.updateParts env dets embs).matchesB.map Prod.fst,
      ¬ x ∈ (st.updateParts env dets embs).uTrkB := by
  rw [parts_mB, parts_uB]
  exact linAssign_disjoint env.solver _ _ _ true (iouCost_r env st _ _)
    (candidates_nodup env st dets embs hs hnd) (hs _ _).1
    (fun p hp => ((hs _ _).2.2 p hp).1)

theorem candidates_cases {σ F : Type} (env : Env σ F) (st : MT σ F)
    (dets : List Detection) (embs : List F) :
    ∀ x ∈ (st.updateParts env dets embs).candidates,
      x ∈ (st.updateParts env dets embs).unconfirmedIds ∨
      (x ∈ (st.updateParts env dets embs).uTrkA0 ∧ (getTrack env st x).age = 0) := by
  intro x hx
  rw [parts_candidates] at hx
  rcases List.mem_append.mp hx with h | h
  · exact Or.inl h
  · have := List.mem_filter.mp h
    exact Or.inr ⟨this.1, by simpa using this.2⟩

theorem uTrkA_cases {σ F : Type} (env : Env σ F) (st : MT σ F)
    (dets : List Detection) (embs : List F) :
    ∀ x ∈ (st.updateParts env dets embs).uTrkA,
      x ∈ (st.updateParts env dets embs).uTrkA0 ∧ ¬ (getTrack env st x).age = 0 := by
  intro x hx
  rw [parts_uTrkA] at hx
  have := List.mem_filter.mp hx
  exact ⟨this.1, by simpa using this.2⟩

theorem stage2_cover {σ F : Type} (env : Env σ F) (st : MT σ F)
    (dets : List Detection) (embs : List F) :
    ∀ x ∈ (st.updateParts env dets embs).candidates,
      x ∈ (st.updateParts env dets embs).matchesAll.map Prod.fst ∨
      x ∈ (st.updateParts env dets embs).uTrk := by
  intro x hx
  have h := linAssign_cover env.solver
    (st.iouCost env (st.updateParts env dets embs).candidates
      ((st.updateParts env dets embs).uDetA.map (fun did => dets.getD did d0)))
    (st.updateParts env dets embs).candidates (st.updateParts env dets embs).uDetA true
    (iouCost_r env st _ _) x hx
  rw [← parts_mB, ← parts_uB] at h
  rcases h with h | h
  · left
    rw [parts_matchesAll, List.map_append]
    exact List.mem_append.mpr (Or.inr h)
  · right
    rw [parts_uTrk]
    exact List.mem_append.mpr (Or.inr h)

theorem update_cover {σ F : Type} (env : Env σ F) (st : MT σ F)
    (dets : List Detection) (embs : List F) :
    ∀ id ∈ keys st.tracks,
      id ∈ (st.updateParts env dets embs).matchesAll.map Prod.fst ∨
      id ∈ (st.updateParts env dets embs).uTrk := by
  intro id hid
  rcases keys_split env st dets embs id hid with hc | hu
  · have h := linAssign_cover env.solver
      (st.matchingCost env (st.updateParts env dets embs).confirmedIds dets embs)
      (st.updateParts env dets embs).confirmedIds (List.range dets.length) false
      (matchingCost_r env st _ dets embs) id hc
    rw [← parts_mA, ← parts_uA0] at h
    rcases h with h | h
    · left
      rw [parts_matchesAll, List.map_append]
      exact List.mem_append.mpr (Or.inl h)
    · by_cases ha : (getTrack env st id).age = 0
      · apply stage2_cover env st dets embs id
        rw [parts_candidates]
        exact List.mem_append.mpr (Or.inr (List.mem_filter.mpr ⟨h, by simpa using ha⟩))
      · right
        rw [parts_uTrk]
        refine List.mem_append.mpr (Or.inl ?_)
        rw [parts_uTrkA]
        exact List.mem_filter.mpr ⟨h, by simpa using ha⟩
  · apply stage2_cover env st dets embs id
    rw [parts_candidates]
    exact List.mem_append.mpr (Or.inl hu)

theorem update_disjoint {σ F : Type} (env : Env σ F) (st : MT σ F)
    (dets : List Detection) (embs : List F) (hs : SolverOK env.solver)
    (hnd : (keys st.tracks).Nodup) :
    ∀ x ∈ (st.updateParts env dets embs).uTrk,
      ¬ x ∈ (st.updateParts env dets embs).matchesAll.map Prod.fst := by
  intro x hxu hxm
  rw [parts_uTrk] at hxu
  rw [parts_matchesAll, List.map_append] at hxm
  rcases List.mem_append.mp hxu with hA | hB
  · obtain ⟨hA0, hAge⟩ := uTrkA_cases env st dets embs x hA
    rcases List.mem_append.mp hxm with hmA | hmB
    · exact stage1_disjoint env st dets embs hs hnd x hmA hA0
    · have hxc := matchesB_sub_candidates env st dets embs hs x hmB
      rcases candidates_cases env st dets embs x hxc with hunc | h2
      · exact confirmed_unconfirmed_disjoint env st dets embs hnd x
          (uTrkA0_sub_confirmed env st dets embs hs x hA0) hunc
      · exact hAge h2.2
  · rcases List.mem_append.mp hxm with hmA | hmB
    · have hxc := uTrkB_sub_candidates env st dets embs hs x hB
      rcases candidates_cases env st dets embs x hxc with hunc | h2
      · exact confirmed_unconfirmed_disjoint env st dets embs hnd x
          (matchesA_sub_confirmed env st dets embs hs x hmA) hunc
      · exact stage1_disjoint env st dets embs hs hnd x hmA h2.1
    · exact stage2_disjoint env st dets embs hs hnd x hmB hB

theorem uTrk_nodup {σ F : Type} (env : Env σ F) (st : MT σ F)
    (dets : List Detection) (embs : List F) (hs : SolverOK env.solver)
    (hnd : (keys st.tracks).Nodup) :
    (st.updateParts env dets embs).uTrk.Nodup := by
  rw [parts_uTrk]
  apply List.Nodup.append
  · rw [parts_uTrkA]
    exact List.Nodup.filter _ (uTrkA0_nodup env st dets embs hs hnd)
  · exact uTrkB_nodup env st dets embs hs hnd
  · intro x hxA hxB
    obtain ⟨hA0, hAge⟩ := uTrkA_cases env st dets embs x hxA
    have hxc := uTrkB_sub_candidates env st dets embs hs x hxB
    rcases candidates_cases env st dets embs x hxc with hunc | h2
    · exact confirmed_unconfirmed_disjoint env st dets embs hnd x
        (uTrkA0_sub_confirmed env st dets embs hs x hA0) hunc
    · exact hAge h2.2

theorem applyMatchStep_mem {σ F : Type} (env : Env σ F) (dets : List Detection)
    (embs : List F) (st : MT σ F) (q : (ℕ × ℕ) × ℚ) :
    ∀ p ∈ (applyMatchStep env dets embs st q).tracks,
      (p.1 = q.1.1 ∧ p.2.age = 0) ∨ (p ∈ st.tracks ∧ ¬ p.1 = q.1.1) := by
  intro p hp
  unfold applyMatchStep at hp
  cases hl : alookup st.tracks q.1.1 with
  | none =>
    rw [hl] at hp
    right
    refine ⟨hp, ?_⟩
    intro hcontra
    rw [alookup_eq_none] at hl
    exact hl (hcontra ▸ List.mem_map_of_mem Prod.fst hp)
  | some tr =>
    rw [hl] at hp
    dsimp only at hp
    cases hri : rectInter (env.kf.stateBBox (env.kf.update tr.state
        (dets.getD q.1.2 d0).bbox MeasType.DETECTOR)) env.frame_rect with
    | some ib =>
      rw [hri] at hp
      dsimp only at hp
      obtain ⟨pk, pv⟩ := p
      rcases mem_setKey _ _ _ _ _ hp with ⟨h1, h2⟩ | ⟨h1, h2⟩
      · left
        refine ⟨h1, ?_⟩
        rw [h2]
        show Track.age _ = 0
        repeat' split
        all_goals rfl
      · right
        exact ⟨h1, h2⟩
    | none =>
      rw [hri] at hp
      dsimp only at hp
      obtain ⟨pk, pv⟩ := p
      have := (mem_delKey _ _ _ _).mp hp
      right
      exact ⟨this.1, this.2⟩

theorem applyMatches_mem {σ F : Type} (env : Env σ F) (dets : List Detection)
    (embs : List F) (st : MT σ F) (ms : List ((ℕ × ℕ) × ℚ)) :
    ∀ p ∈ (applyMatches env dets embs st ms).tracks,
      p.2.age = 0 ∨ (p ∈ st.tracks ∧ ¬ p.1 ∈ ms.map (fun q => q.1.1)) := by
  induction ms generalizing st with
  | nil => intro p hp; right; exact ⟨hp, by simp⟩
  | cons q rest ih =>
    intro p hp
    have hstep := ih (applyMatchStep env dets embs st q) p hp
    rcases hstep with h | ⟨h1, h2⟩
    · left; exact h
    · rcases applyMatchStep_mem env dets embs st q p h1 with ⟨hk, ha⟩ | ⟨hm, hk⟩
      · left; exact ha
      · right
        refine ⟨hm, ?_⟩
        rw [List.map_cons, List.mem_cons]
        intro hc
        rcases hc with hc | hc
        · exact hk hc
        · exact h2 hc

theorem applyMatchStep_lookup_other {σ F : Type} (env : Env σ F) (dets : List Detection)
    (embs : List F) (st : MT σ F) (q : (ℕ × ℕ) × ℚ) (id : ℕ) (h : ¬ id = q.1.1) :
    alookup (applyMatchStep env dets embs st q).tracks id = alookup st.tracks id := by
  unfold applyMatchStep
  cases hl : alookup st.tracks q.1.1 with
  | none => rfl
  | some tr =>
    dsimp only
    cases hri : rectInter (env.kf.stateBBox (env.kf.update tr.state
        (dets.getD q.1.2 d0).bbox MeasType.DETECTOR)) env.frame_rect with
    | some ib =>
      exact alookup_setKey_ne st.tracks q.1.1 id _ (fun he => h he.symm)
    | none =>
      exact alookup_delKey_ne st.tracks q.1.1 id (fun he => h he.symm)

theorem applyMatches_lookup_other {σ F : Type} (env : Env σ F) (dets : List Detection)
    (embs : List F) (st : MT σ F) (ms : List ((ℕ × ℕ) × ℚ)) (id : ℕ)
    (h : ¬ id ∈ ms.map (fun q => q.1.1)) :
    alookup (applyMatches env dets embs st ms).tracks id = alookup st.tracks id := by
  induction ms generalizing st with
  | nil => rfl
  | cons q rest ih =>
    rw [List.map_cons, List.mem_cons] at h
    push_neg at h
    have h1 : ¬ id = q.1.1 := h.1
    have h2 : ¬ id ∈ rest.map (fun q => q.1.1) := h.2
    show alookup (applyMatches env dets embs (applyMatchStep env dets embs st q) rest).tracks id = _
    rw [ih (applyMatchStep env dets embs st q) h2]
    exact applyMatchStep_lookup_other env dets embs st q id h1

theorem applyMatchStep_next {σ F : Type} (env : Env σ F) (dets : List Detection)
    (embs : List F) (st : MT σ F) (q : (ℕ × ℕ) × ℚ) :
    (applyMatchStep env dets embs st q).next_id = st.next_id := by
  unfold applyMatchStep
  cases hl : alookup st.tracks q.1.1 with
  | none => rfl
  | some tr =>
    dsimp only
    split <;> rfl

theorem applyMatches_next {σ F : Type} (env : Env σ F) (dets : List Detection)
    (embs : List F) (st : MT σ F) (ms : List ((ℕ × ℕ) × ℚ)) :
    (applyMatches env dets embs st ms).next_id = st.next_id := by
  induction ms generalizing st with
  | nil => rfl
  | cons q rest ih =>
    show (applyMatches env dets embs (applyMatchStep env dets embs st q) rest).next_id = _
    rw [ih, applyMatchStep_next]

theorem registerStep_mem {σ F : Type} (env : Env σ F) (dets : List Detection)
    (st : MT σ F) (did : ℕ) :
    ∀ p ∈ (registerStep env dets st did).tracks, p ∈ st.tracks ∨ p.2.age = 0 := by
  intro p hp
  unfold registerStep at hp
  dsimp only at hp
  by_cases hc : (dets.getD did d0).conf > env.cfg.min_register_conf
  · rw [if_pos hc] at hp
    obtain ⟨pk, pv⟩ := p
    rcases mem_insKey _ _ _ _ _ hp with h | ⟨h1, h2⟩
    · left; exact h
    · right; rw [h2]; rfl
  · rw [if_neg hc] at hp
    left; exact hp

theorem registerNew_mem {σ F : Type} (env : Env σ F) (dets : List Detection)
    (st : MT σ F) (dids : List ℕ) :
    ∀ p ∈ (registerNew env dets st dids).tracks, p ∈ st.tracks ∨ p.2.age = 0 := by
  induction dids generalizing st with
  | nil => intro p hp; left; exact hp
  | cons d rest ih =>
    intro p hp
    have := ih (registerStep env dets st d) p hp
    rcases this with h | h
    · exact registerStep_mem env dets st d p h
    · right; exact h

theorem registerStep_next {σ F : Type} (env : Env σ F) (dets : List Detection)
    (st : MT σ F) (did : ℕ) :
    st.next_id ≤ (registerStep env dets st did).next_id := by
  unfold registerStep
  dsimp only
  by_cases hc : (dets.getD did d0).conf > env.cfg.min_register_conf
  · rw [if_pos hc]; exact Nat.le_succ _
  · rw [if_neg hc]

theorem registerStep_lookup_lt {σ F : Type} (env : Env σ F) (dets : List Detection)
    (st : MT σ F) (did : ℕ) (id : ℕ) (hid : id < st.next_id) :
    alookup (registerStep env dets st did).tracks id = alookup st.tracks id := by
  unfold registerStep
  dsimp only
  by_cases hc : (dets.getD did d0).conf > env.cfg.min_register_conf
  · rw [if_pos hc]
    exact alookup_insKey_ne st.tracks st.next_id id _ (by omega)
  · rw [if_neg hc]

theorem registerNew_lookup_lt {σ F : Type} (env : Env σ F) (dets : List Detection)
    (st : MT σ F) (dids : List ℕ) (id : ℕ) (hid : id < st.next_id) :
    alookup (registerNew env dets st dids).tracks id = alookup st.tracks id ∧
      st.next_id ≤ (registerNew env dets st dids).next_id := by
  induction dids generalizing st with
  | nil => exact ⟨rfl, le_refl _⟩
  | cons d rest ih =>
    have hmono := registerStep_next env dets st d
    have hid2 : id < (registerStep env dets st d).next_id := by omega
    obtain ⟨h1, h2⟩ := ih (registerStep env dets st d) hid2
    constructor
    · show alookup (registerNew env dets (registerStep env dets st d) rest).tracks id = _
      rw [h1]
      exact registerStep_lookup_lt env dets st d id hid
    · show st.next_id ≤ (registerNew env dets (registerStep env dets st d) rest).next_id
      omega

theorem cleanupStep_mem {σ F : Type} (maxAge : ℕ) (st : MT σ F) (t : ℕ) :
    ∀ p ∈ (cleanupStep maxAge st t).tracks,
      (p ∈ st.tracks ∧ ¬ p.1 = t) ∨ (p.1 = t ∧ p.2.age ≤ maxAge) := by
  intro p hp
  unfold cleanupStep at hp
  cases hl : alookup st.tracks t with
  | none =>
    rw [hl] at hp
    left
    refine ⟨hp, ?_⟩
    intro hc
    rw [alookup_eq_none] at hl
    exact hl (hc ▸ List.mem_map_of_mem Prod.fst hp)
  | some tr =>
    rw [hl] at hp
    dsimp only at hp
    by_cases hconf : tr.confirmed = false
    · rw [if_pos hconf] at hp
      obtain ⟨pk, pv⟩ := p
      have := (mem_delKey _ _ _ _).mp hp
      left; exact ⟨this.1, this.2⟩
    · rw [if_neg hconf] at hp
      by_cases hage : tr.age + 1 > maxAge
      · rw [if_pos hage] at hp
        obtain ⟨pk, pv⟩ := p
        have := (mem_delKey _ _ _ _).mp hp
        left; exact ⟨this.1, this.2⟩
      · rw [if_neg hage] at hp
        obtain ⟨pk, pv⟩ := p
        rcases mem_setKey _ _ _ _ _ hp with ⟨h1, h2⟩ | ⟨h1, h2⟩
        · right
          refine ⟨h1, ?_⟩
          rw [h2]
          show tr.age + 1 ≤ maxAge
          omega
        · left; exact ⟨h1, h2⟩

theorem cleanupLost_age {σ F : Type} (maxAge : ℕ) (st : MT σ F) (tids : List ℕ)
    (H : ∀ p ∈ st.tracks, p.2.age ≤ maxAge ∨ p.1 ∈ tids) :
    ∀ p ∈ (cleanupLost maxAge st tids).tracks, p.2.age ≤ maxAge := by
  induction tids generalizing st with
  | nil =>
    intro p hp
    rcases H p hp with h | h
    · exact h
    · simp at h
  | cons t rest ih =>
    intro p hp
    refine ih (cleanupStep maxAge st t) ?_ p hp
    intro e he
    rcases cleanupStep_mem maxAge st t e he with ⟨h1, h2⟩ | ⟨h1, h2⟩
    · rcases H e h1 with h | h
      · left; exact h
      · rw [List.mem_cons] at h
        rcases h with h | h
        · exact absurd h h2
        · right; exact h
    · left; exact h2

theorem cleanupStep_lookup_other {σ F : Type} (maxAge : ℕ) (st : MT σ F) (t id : ℕ)
    (h : ¬ id = t) :
    alookup (cleanupStep maxAge st t).tracks id = alookup st.tracks id := by
  unfold cleanupStep
  cases hl : alookup st.tracks t with
  | none => rfl
  | some tr =>
    dsimp only
    by_cases hconf : tr.confirmed = false
    · rw [if_pos hconf]
      exact alookup_delKey_ne st.tracks t id (fun he => h he.symm)
    · rw [if_neg hconf]
      by_cases hage : tr.age + 1 > maxAge
      · rw [if_pos hage]
        exact alookup_delKey_ne st.tracks t id (fun he => h he.symm)
      · rw [if_neg hage]
        exact alookup_setKey_ne st.tracks t id _ (fun he => h he.symm)

theorem cleanupLost_lookup_other {σ F : Type} (maxAge : ℕ) (st : MT σ F)
    (tids : List ℕ) (id : ℕ) (h : ¬ id ∈ tids) :
    alookup (cleanupLost maxAge st tids).tracks id = alookup st.tracks id := by
  induction tids generalizing st with
  | nil => rfl
  | cons t rest ih =>
    rw [List.mem_cons] at h
    push_neg at h
    show alookup (cleanupLost maxAge (cleanupStep maxAge st t) rest).tracks id = _
    rw [ih (cleanupStep maxAge st t) h.2]
    exact cleanupStep_lookup_other maxAge st t id h.1

theorem cleanupLost_append {σ F : Type} (maxAge : ℕ) (st : MT σ F) (l1 l2 : List ℕ) :
    cleanupLost maxAge st (l1 ++ l2) = cleanupLost maxAge (cleanupLost maxAge st l1) l2 := by
  unfold cleanupLost
  rw [List.foldl_append]

theorem cleanupStep_at {σ F : Type} (maxAge : ℕ) (st : MT σ F) (t : ℕ) (tr : Track σ F)
    (hl : alookup st.tracks t = some tr) :
    alookup (cleanupStep maxAge st t).tracks t =
      (if tr.confirmed = false then none
       else if tr.age + 1 > maxAge then none
       else some { tr with age := tr.age + 1 }) := by
  have hkey : t ∈ keys st.tracks := List.mem_map_of_mem Prod.fst (alookup_mem _ _ _ hl)
  unfold cleanupStep
  rw [hl]
  dsimp only
  by_cases hconf : tr.confirmed = false
  · rw [if_pos hconf, if_pos hconf]
    exact alookup_delKey_self st.tracks t
  · rw [if_neg hconf, if_neg hconf]
    by_cases hage : tr.age + 1 > maxAge
    · rw [if_pos hage, if_pos hage]
      exact alookup_delKey_self st.tracks t
    · rw [if_neg hage, if_neg hage]
      exact alookup_setKey_self st.tracks t _ hkey

/-- C2: in every `update` call, every track left unmatched after both
stages is removed immediately when unconfirmed; when confirmed its age is
incremented by one and it is removed exactly when the incremented age
exceeds `max_age`. Consequently every track in the live set after the call
has `age <= max_age`. (Hypotheses: a valid in-range solver output, distinct
live keys, and live keys below the id counter — the tracker-state
invariant.) -/
theorem unmatched_eviction_and_age_bound {σ F : Type} (env : Env σ F) (st : MT σ F)
    (dets : List Detection) (embs : List F)
    (hs : SolverOK env.solver) (hnd : (keys st.tracks).Nodup)
    (hb : ∀ id ∈ keys st.tracks, id < st.next_id) :
    (∀ id tr, id ∈ (st.updateParts env dets embs).uTrk →
      alookup st.tracks id = some tr →
      (tr.confirmed = false → alookup (st.update env dets embs).tracks id = none) ∧
      (tr.confirmed = true → alookup (st.update env dets embs).tracks id =
        (if tr.age + 1 > env.cfg.max_age then none
         else some { tr with age := tr.age + 1 }))) ∧
    (∀ p ∈ (st.update env dets embs).tracks, p.2.age ≤ env.cfg.max_age) := by
  have hzip : (((st.updateParts env dets embs).matchesAll.zip
      (st.updateParts env dets embs).overlaps).map (fun q => q.1.1)) =
      (st.updateParts env dets embs).matchesAll.map Prod.fst := by
    have hlen : (st.updateParts env dets embs).matchesAll.length ≤
        (st.updateParts env dets embs).overlaps.length := by
      rw [parts_overlaps, maxOverlaps_length]
    have h1 : (((st.updateParts env dets embs).matchesAll.zip
        (st.updateParts env dets embs).overlaps).map (fun q => q.1.1)) =
        ((((st.updateParts env dets embs).matchesAll.zip
          (st.updateParts env dets embs).overlaps).map Prod.fst).map Prod.fst) := by
      rw [List.map_map]
      rfl
    rw [h1, List.map_fst_zip _ _ hlen]
  constructor
  · intro id tr hu hl
    have hidk : id ∈ keys st.tracks := List.mem_map_of_mem Prod.fst (alookup_mem _ _ _ hl)
    have hidlt : id < st.next_id := hb id hidk
    have hnm : ¬ id ∈ (st.updateParts env dets embs).matchesAll.map Prod.fst :=
      update_disjoint env st dets embs hs hnd id hu
    have h1 : alookup (applyMatches env dets embs st
        ((st.updateParts env dets embs).matchesAll.zip
          (st.updateParts env dets embs).overlaps)).tracks id = some tr := by
      rw [applyMatches_lookup_other env dets embs st _ id (by rw [hzip]; exact hnm)]
      exact hl
    have hM1next : (applyMatches env dets embs st
        ((st.updateParts env dets embs).matchesAll.zip
          (st.updateParts env dets embs).overlaps)).next_id = st.next_id :=
      applyMatches_next env dets embs st _
    have h2pack := registerNew_lookup_lt env dets
      (applyMatches env dets embs st
        ((st.updateParts env dets embs).matchesAll.zip
          (st.updateParts env dets embs).overlaps))
      (st.updateParts env dets embs).uDet id (by rw [hM1next]; exact hidlt)
    have h2 : alookup (registerNew env dets
        (applyMatches env dets embs st
          ((st.updateParts env dets embs).matchesAll.zip
            (st.updateParts env dets embs).overlaps))
        (st.updateParts env dets embs).uDet).tracks id = some tr := by
      rw [h2pack.1]
      exact h1
    have hund := uTrk_nodup env st dets embs hs hnd
    obtain ⟨l1, l2, hsplit⟩ := List.append_of_mem hu
    rw [hsplit] at hund
    rw [List.nodup_append] at hund
    have hnl2 : ¬ id ∈ l2 := by
      have := hund.2.1
      rw [List.nodup_cons] at this
      exact this.1
    have hnl1 : ¬ id ∈ l1 := fun hc => hund.2.2 hc (List.mem_cons_self id l2)
    rw [update_eq, hsplit, cleanupLost_append]
    have h3 : alookup (cleanupLost env.cfg.max_age
        (registerNew env dets
          (applyMatches env dets embs st
            ((st.updateParts env dets embs).matchesAll.zip
              (st.updateParts env dets embs).overlaps))
          (st.updateParts env dets embs).uDet) l1).tracks id = some tr := by
      rw [cleanupLost_lookup_other _ _ _ _ hnl1]
      exact h2
    have hstepred : cleanupLost env.cfg.max_age
        (cleanupLost env.cfg.max_age
          (registerNew env dets
            (applyMatches env dets embs st
              ((st.updateParts env dets embs).matchesAll.zip
                (st.updateParts env dets embs).overlaps))
            (st.updateParts env dets embs).uDet) l1) (id :: l2) =
        cleanupLost env.cfg.max_age
          (cleanupStep env.cfg.max_age
            (cleanupLost env.cfg.max_age
              (registerNew env dets
                (applyMatches env dets embs st
                  ((st.updateParts env dets embs).matchesAll.zip
                    (st.updateParts env dets embs).overlaps))
                (st.updateParts env dets embs).uDet) l1) id) l2 := rfl
    rw [hstepred]
    constructor
    · intro hconf
      rw [cleanupLost_lookup_other _ _ _ _ hnl2, cleanupStep_at _ _ _ tr h3, if_pos hconf]
    · intro hconf
      rw [cleanupLost_lookup_other _ _ _ _ hnl2, cleanupStep_at _ _ _ tr h3,
        if_neg (by rw [hconf]; exact fun hc => Bool.true_eq_false ▸ hc ▸ rfl)]
  · intro p hp
    rw [update_eq] at hp
    refine cleanupLost_age env.cfg.max_age _ _ ?_ p hp
    intro e he
    rcases registerNew_mem env dets _ _ e he with he2 | he2
    · rcases applyMatches_mem env dets embs st _ e he2 with h | h
      · left
        omega
      · have hcov := update_cover env st dets embs e.1 (List.mem_map_of_mem Prod.fst h.1)
        rcases hcov with hcontra | hok
        · exact absurd hcontra (by rw [← hzip]; exact h.2)
        · right
          exact hok
    · left
      omega

/-- Closed instance of the C2 theorem: with no detections, a confirmed track
already at `max_age` and an unconfirmed track are both evicted — the first
because its incremented age exceeds `max_age`, the second immediately. -/
theorem unmatched_eviction_and_age_bound_holds :
    alookup ((⟨5, [(1, trT 1 2 true ⟨0, 0, 2, 2⟩), (2, trT 2 0 false ⟨0, 0, 2, 2⟩)]⟩ :
      MT Unit ℚ).update tenv [] []).tracks 1 = none ∧
    alookup ((⟨5, [(1, trT 1 2 true ⟨0, 0, 2, 2⟩), (2, trT 2 0 false ⟨0, 0, 2, 2⟩)]⟩ :
      MT Unit ℚ).update tenv [] []).tracks 2 = none := by
  constructor
  · exact ((unmatched_eviction_and_age_bound tenv
      ⟨5, [(1, trT 1 2 true ⟨0, 0, 2, 2⟩), (2, trT 2 0 false ⟨0, 0, 2, 2⟩)]⟩ [] []
      solverOK_diag (by decide) (by decide)).1 1 (trT 1 2 true ⟨0, 0, 2, 2⟩)
      (by decide) (by rfl)).2 rfl
  · exact ((unmatched_eviction_and_age_bound tenv
      ⟨5, [(1, trT 1 2 true ⟨0, 0, 2, 2⟩), (2, trT 2 0 false ⟨0, 0, 2, 2⟩)]⟩ [] []
      solverOK_diag (by decide) (by decide)).1 2 (trT 2 0 false ⟨0, 0, 2, 2⟩)
      (by decide) (by rfl)).1 rfl

/-- C3: in every `update` call the stage-2 candidate set is exactly the
unconfirmed tracks followed by the stage-1-unmatched (necessarily confirmed)
tracks whose age is 0, and every stage-1-unmatched track with age ≠ 0 is
excluded from the stage-2 candidates and carried directly into the final
unmatched-track list. -/
theorem stage2_candidate_rule {σ F : Type} (env : Env σ F) (st : MT σ F)
    (dets : List Detection) (embs : List F)
    (hs : SolverOK env.solver) (hnd : (keys st.tracks).Nodup) :
    (st.updateParts env dets embs).candidates =
      (st.updateParts env dets embs).unconfirmedIds ++
        (st.updateParts env dets embs).uTrkA0.filter
          (fun tid => (getTrack env st tid).age = 0) ∧
    (∀ tid ∈ (st.updateParts env dets embs).uTrkA0,
      tid ∈ (st.updateParts env dets embs).confirmedIds) ∧
    (∀ tid ∈ (st.updateParts env dets embs).uTrkA0, ¬ (getTrack env st tid).age = 0 →
      ¬ tid ∈ (st.updateParts env dets embs).candidates ∧
      tid ∈ (st.updateParts env dets embs).uTrk) := by
  refine ⟨parts_candidates env st dets embs, uTrkA0_sub_confirmed env st dets embs hs, ?_⟩
  intro tid htid hage
  constructor
  · intro hc
    rcases candidates_cases env st dets embs tid hc with hunc | h2
    · exact confirmed_unconfirmed_disjoint env st dets embs hnd tid
        (uTrkA0_sub_confirmed env st dets embs hs tid htid) hunc
    · exact hage h2.2
  · rw [parts_uTrk]
    refine List.mem_append.mpr (Or.inl ?_)
    rw [parts_uTrkA]
    exact List.mem_filter.mpr ⟨htid, by simpa using hage⟩

/-- Closed instance of the C3 theorem: a stage-1-unmatched confirmed track
with age 1 is excluded from the stage-2 candidates and lands in the final
unmatched list. -/
theorem stage2_candidate_rule_holds :
    ¬ (1 ∈ ((⟨5, [(1, trT 1 1 true ⟨0, 0, 2, 2⟩)]⟩ : MT Unit ℚ).updateParts tenv
      [] []).candidates) ∧
    1 ∈ ((⟨5, [(1, trT 1 1 true ⟨0, 0, 2, 2⟩)]⟩ : MT Unit ℚ).updateParts tenv [] []).uTrk :=
  (stage2_candidate_rule tenv ⟨5, [(1, trT 1 1 true ⟨0, 0, 2, 2⟩)]⟩ [] []
    solverOK_diag (by decide)).2.2 1 (by decide) (by decide)

theorem keys_filterMap_sublist {α β : Type} (g : ℕ → α → Option β) (m : List (ℕ × α)) :
    (keys (m.filterMap (fun p => (g p.1 p.2).map (fun b => (p.1, b))))).Sublist (keys m) := by
  induction m with
  | nil => simp [keys]
  | cons p rest ih =>
    obtain ⟨k, v⟩ := p
    rw [List.filterMap_cons]
    cases g k v with
    | none =>
      simp only [Option.map_none']
      exact List.Sublist.cons _ ih
    | some b =>
      simp only [Option.map_some']
      exact List.Sublist.cons₂ _ ih

theorem trackStep_keys {σ F : Type} (env : Env σ F) (st : MT σ F)
    (flow : ℕ → Option Rect) (Hcam : Option (Rect → Rect)) :
    (keys (st.trackStep env flow Hcam).tracks).Sublist (keys st.tracks) ∧
    (st.trackStep env flow Hcam).next_id = st.next_id := by
  cases Hcam with
  | none => exact ⟨List.nil_sublist _, rfl⟩
  | some H =>
    exact ⟨keys_filterMap_sublist (fun k trk => propagateOne env H (flow k) trk) st.tracks, rfl⟩

theorem seedList_keys_bounds {σ F : Type} (env : Env σ F) (n : ℕ) (dets : List Detection) :
    ∀ id ∈ keys (seedList env n dets), n ≤ id ∧ id < n + dets.length := by
  induction dets generalizing n with
  | nil => simp [seedList, keys]
  | cons det rest ih =>
    intro id hid
    rw [seedList, keys_cons, List.mem_cons] at hid
    rcases hid with h | h
    · rw [h]
      simp only [List.length_cons]
      omega
    · have := ih (n + 1) id h
      simp only [List.length_cons]
      omega

theorem seedList_keys_nodup {σ F : Type} (env : Env σ F) (n : ℕ) (dets : List Detection) :
    (keys (seedList env n dets)).Nodup := by
  induction dets generalizing n with
  | nil => simp [seedList, keys]
  | cons det rest ih =>
    rw [seedList, keys_cons, List.nodup_cons]
    constructor
    · intro hc
      have := seedList_keys_bounds env (n + 1) rest n hc
      omega
    · exact ih (n + 1)

theorem applyMatchStep_keys {σ F : Type} (env : Env σ F) (dets : List Detection)
    (embs : List F) (st : MT σ F) (q : (ℕ × ℕ) × ℚ) :
    (keys (applyMatchStep env dets embs st q).tracks).Sublist (keys st.tracks) := by
  unfold applyMatchStep
  cases hl : alookup st.tracks q.1.1 with
  | none => exact List.Sublist.refl _
  | some tr =>
    dsimp only
    cases hri : rectInter (env.kf.stateBBox (env.kf.update tr.state
        (dets.getD q.1.2 d0).bbox MeasType.DETECTOR)) env.frame_rect with
    | some ib =>
      show (keys (setKey st.tracks q.1.1 _)).Sublist _
      rw [keys_setKey]
    | none =>
      show (keys (delKey st.tracks q.1.1)).Sublist _
      rw [keys_delKey]
      exact List.filter_sublist _

theorem applyMatches_keys {σ F : Type} (env : Env σ F) (dets : List Detection)
    (embs : List F) (st : MT σ F) (ms : List ((ℕ × ℕ) × ℚ)) :
    (keys (applyMatches env dets embs st ms).tracks).Sublist (keys st.tracks) := by
  induction ms generalizing st with
  | nil => exact List.Sublist.refl _
  | cons q rest ih =>
    exact List.Sublist.trans (ih (applyMatchStep env dets embs st q))
      (applyMatchStep_keys env dets embs st q)

theorem cleanupStep_keys {σ F : Type} (maxAge : ℕ) (st : MT σ F) (t : ℕ) :
    (keys (cleanupStep maxAge st t).tracks).Sublist (keys st.tracks) ∧
    (cleanupStep maxAge st t).next_id = st.next_id := by
  unfold cleanupStep
  cases hl : alookup st.tracks t with
  | none => exact ⟨List.Sublist.refl _, rfl⟩
  | some tr =>
    dsimp only
    by_cases hconf : tr.confirmed = false
    · rw [if_pos hconf]
      refine ⟨?_, rfl⟩
      show (keys (delKey st.tracks t)).Sublist _
      rw [keys_delKey]
      exact List.filter_sublist _
    · rw [if_neg hconf]
      by_cases hage : tr.age + 1 > maxAge
      · rw [if_pos hage]
        refine ⟨?_, rfl⟩
        show (keys (delKey st.tracks t)).Sublist _
        rw [keys_delKey]
        exact List.filter_sublist _
      · rw [if_neg hage]
        refine ⟨?_, rfl⟩
        show (keys (setKey st.tracks t _)).Sublist _
        rw [keys_setKey]

theorem cleanupLost_keys {σ F : Type} (maxAge : ℕ) (st : MT σ F) (tids : List ℕ) :
    (keys (cleanupLost maxAge st tids).tracks).Sublist (keys st.tracks) ∧
    (cleanupLost maxAge st tids).next_id = st.next_id := by
  induction tids generalizing st with
  | nil => exact ⟨List.Sublist.refl _, rfl⟩
  | cons t rest ih =>
    obtain ⟨h1, h2⟩ := ih (cleanupStep maxAge st t)
    obtain ⟨h3, h4⟩ := cleanupStep_keys maxAge st t
    refine ⟨?_, ?_⟩
    · show (keys (cleanupLost maxAge (cleanupStep maxAge st t) rest).tracks).Sublist _
      exact List.Sublist.trans h1 h3
    · show (cleanupLost maxAge (cleanupStep maxAge st t) rest).next_id = _
      rw [h2, h4]

theorem registerNew_inv {σ F : Type} (env : Env σ F) (dets : List Detection)
    (st : MT σ F) (dids : List ℕ)
    (hnd : (keys st.tracks).Nodup) (hb : ∀ id ∈ keys st.tracks, id < st.next_id) :
    ((keys (registerNew env dets st dids).tracks).Nodup ∧
      ∀ id ∈ keys (registerNew env dets st dids).tracks,
        id < (registerNew env dets st dids).next_id) ∧
    st.next_id ≤ (registerNew env dets st dids).next_id ∧
    (∀ id ∈ keys (registerNew env dets st dids).tracks,
      id ∈ keys st.tracks ∨ st.next_id ≤ id) := by
  induction dids generalizing st with
  | nil => exact ⟨⟨hnd, hb⟩, le_refl _, fun id hid => Or.inl hid⟩
  | cons d rest ih =>
    have hstep : ((keys (registerStep env dets st d).tracks).Nodup ∧
        ∀ id ∈ keys (registerStep env dets st d).tracks,
          id < (registerStep env dets st d).next_id) ∧
        st.next_id ≤ (registerStep env dets st d).next_id ∧
        (∀ id ∈ keys (registerStep env dets st d).tracks,
          id ∈ keys st.tracks ∨ st.next_id ≤ id) := by
      unfold registerStep
      dsimp only
      by_cases hc : (dets.getD d d0).conf > env.cfg.min_register_conf
      · rw [if_pos hc]
        have hkeys : keys (insKey st.tracks st.next_id
            (newTrack env (dets.getD d d0).label (dets.getD d d0).bbox st.next_id)) =
            keys st.tracks ++ [st.next_id] := by
          rw [keys_insKey]
          have : alookup st.tracks st.next_id = none := by
            rw [alookup_eq_none]
            intro hcm
            exact absurd (hb _ hcm) (lt_irrefl _)
          rw [this]
          rfl
        refine ⟨⟨?_, ?_⟩, Nat.le_succ _, ?_⟩
        · rw [hkeys]
          rw [List.nodup_append]
          refine ⟨hnd, List.nodup_singleton _, ?_⟩
          intro a ha hb2
          rw [List.mem_singleton] at hb2
          subst hb2
          exact absurd (hb _ ha) (lt_irrefl _)
        · intro id hid
          dsimp only
          rw [hkeys] at hid
          rcases List.mem_append.mp hid with h | h
          · have := hb id h
            omega
          · rw [List.mem_singleton] at h
            omega
        · intro id hid
          rw [hkeys] at hid
          rcases List.mem_append.mp hid with h | h
          · exact Or.inl h
          · rw [List.mem_singleton] at h
            right
            omega
      · rw [if_neg hc]
        exact ⟨⟨hnd, hb⟩, le_refl _, fun id hid => Or.inl hid⟩
    obtain ⟨⟨hnd2, hb2⟩, hmono2, hfresh2⟩ := hstep
    obtain ⟨⟨hnd3, hb3⟩, hmono3, hfresh3⟩ := ih (registerStep env dets st d) hnd2 hb2
    refine ⟨⟨hnd3, hb3⟩, le_trans hmono2 hmono3, ?_⟩
    intro id hid
    rcases hfresh3 id hid with h | h
    · rcases hfresh2 id h with h2 | h2
      · exact Or.inl h2
      · exact Or.inr h2
    · right
      omega

theorem initiate_eqn {σ F : Type} (env : Env σ F) (st : MT σ F) (dets : List Detection) :
    st.initiate env dets =
      ⟨st.next_id + dets.length, seedList env st.next_id dets⟩ := by
  unfold MT.initiate
  have hst : ({ st with tracks := [] } : MT σ F) = ⟨st.next_id, []⟩ := rfl
  rw [hst, initiate_run env dets st.next_id [] (by simp [keys])]
  rw [List.nil_append]

theorem stepOp_inv {σ F : Type} (env : Env σ F) (st : MT σ F) (op : Op σ F)
    (h : TrkInv st) :
    TrkInv (stepOp env st op) ∧ st.next_id ≤ (stepOp env st op).next_id ∧
    (∀ id ∈ keys (stepOp env st op).tracks, ¬ id ∈ keys st.tracks → st.next_id ≤ id) := by
  obtain ⟨hnd, hb⟩ := h
  cases op with
  | doTrack flow Hcam =>
    obtain ⟨hsub, hnext⟩ := trackStep_keys env st flow Hcam
    refine ⟨⟨List.Nodup.sublist hsub hnd, ?_⟩, ?_, ?_⟩
    · intro id hid
      show id < (st.trackStep env flow Hcam).next_id
      rw [hnext]
      exact hb id (hsub.subset hid)
    · show st.next_id ≤ (st.trackStep env flow Hcam).next_id
      rw [hnext]
    · intro id hid hnot
      exact absurd (hsub.subset hid) hnot
  | doInitiate dets =>
    have heq : stepOp env st (Op.doInitiate dets) = st.initiate env dets := rfl
    rw [heq, initiate_eqn env st dets]
    refine ⟨⟨seedList_keys_nodup env st.next_id dets, ?_⟩, Nat.le_add_right _ _, ?_⟩
    · intro id hid
      exact (seedList_keys_bounds env st.next_id dets id hid).2
    · intro id hid hnot
      exact (seedList_keys_bounds env st.next_id dets id hid).1
  | doUpdate dets embs =>
    have heq : stepOp env st (Op.doUpdate dets embs) = st.update env dets embs := rfl
    rw [heq, update_eq]
    have hA := applyMatches_keys env dets embs st
      ((st.updateParts env dets embs).matchesAll.zip (st.updateParts env dets embs).overlaps)
    have hAnext := applyMatches_next env dets embs st
      ((st.updateParts env dets embs).matchesAll.zip (st.updateParts env dets embs).overlaps)
    have hAnd := List.Nodup.sublist hA hnd
    have hAb : ∀ id ∈ keys (applyMatches env dets embs st
        ((st.updateParts env dets embs).matchesAll.zip
          (st.updateParts env dets embs).overlaps)).tracks,
        id < (applyMatches env dets embs st
          ((st.updateParts env dets embs).matchesAll.zip
            (st.updateParts env dets embs).overlaps)).next_id := by
      intro id hid
      rw [hAnext]
      exact hb id (hA.subset hid)
    obtain ⟨⟨hnd2, hb2⟩, hmono2, hfresh2⟩ := registerNew_inv env dets _
      (st.updateParts env dets embs).uDet hAnd hAb
    obtain ⟨hCsub, hCnext⟩ := cleanupLost_keys env.cfg.max_age _
      (st.updateParts env dets embs).uTrk
    refine ⟨⟨List.Nodup.sublist hCsub hnd2, ?_⟩, ?_, ?_⟩
    · intro id hid
      rw [hCnext]
      exact hb2 id (hCsub.subset hid)
    · rw [hCnext]
      rw [hAnext] at hmono2
      exact hmono2
    · intro id hid hnot
      rcases hfresh2 id (hCsub.subset hid) with h2 | h2
      · exact absurd (hA.subset h2) hnot
      · rw [hAnext] at h2
        exact h2

theorem runOps_inv {σ F : Type} (env : Env σ F) (st : MT σ F) (ops : List (Op σ F))
    (h : TrkInv st) :
    TrkInv (runOps env st ops) ∧ st.next_id ≤ (runOps env st ops).next_id := by
  induction ops generalizing st with
  | nil => exact ⟨h, le_refl _⟩
  | cons op rest ih =>
    obtain ⟨h1, h2, h3⟩ := stepOp_inv env st op h
    obtain ⟨h4, h5⟩ := ih (stepOp env st op) h1
    exact ⟨h4, le_trans h2 h5⟩

/-- C9: across every sequence of `initiate`, `track` and `update` calls on
one tracker instance, the state invariant (pairwise-distinct live ids, all
strictly below `next_id`) is preserved and `next_id` never decreases; and at
every single step from an invariant state, any id that appears in the live
set without having been live before is at least the pre-step `next_id` —
hence strictly greater than every id assigned before it, so no id is ever
assigned to two tracks, including across bulk resets (`initiate` clears the
track map without resetting `next_id`). -/
theorem track_ids_monotone_unique {σ F : Type} (env : Env σ F) (st : MT σ F)
    (ops : List (Op σ F)) (h : TrkInv st) :
    TrkInv (runOps env st ops) ∧ st.next_id ≤ (runOps env st ops).next_id ∧
    (∀ st' : MT σ F, ∀ op : Op σ F, TrkInv st' →
      TrkInv (stepOp env st' op) ∧ st'.next_id ≤ (stepOp env st' op).next_id ∧
      ∀ id ∈ keys (stepOp env st' op).tracks, ¬ id ∈ keys st'.tracks →
        st'.next_id ≤ id) := by
  obtain ⟨h1, h2⟩ := runOps_inv env st ops h
  exact ⟨h1, h2, fun st' op h' => stepOp_inv env st' op h'⟩

/-- Closed instance of the C9 theorem: a run through initiation, an
empty-frame association and a camera-motion failure preserves the id
invariant and never decreases `next_id`. -/
theorem track_ids_monotone_unique_holds :
    TrkInv (runOps tenv (⟨1, []⟩ : MT Unit ℚ) opsW) ∧
    1 ≤ (runOps tenv (⟨1, []⟩ : MT Unit ℚ) opsW).next_id :=
  ⟨(track_ids_monotone_unique tenv ⟨1, []⟩ opsW (by decide)).1,
   (track_ids_monotone_unique tenv ⟨1, []⟩ opsW (by decide)).2.1⟩
